import Mathlib

/- Verification of the checkpoint-adaptation utilities of this repository
   (libml/utils_vit.py): dictionary flattening and recovery, parameter
   inspection, head/prompt substitution and positional-embedding resampling. -/

set_option maxHeartbeats 1600000
set_option maxRecDepth 100000

namespace UtilsVit

/-- Keys are Python strings, modelled as their character lists. -/
abbrev K : Type := List Char

/-- The path separator used by the flattening utilities (`sep='/'`). -/
def sepc : Char := '/'

/-- A parameter tree: a nested Python dict whose non-dict values (tensors)
have type `V`.  `node` holds the dict entries in insertion order; a Python
dict never has duplicate keys, which is captured by the well-formedness
predicate `wfD` below where needed. -/
inductive PTree (V : Type) where
  | leaf : V → PTree V
  | node : List (K × PTree V) → PTree V

instance {V : Type} : Inhabited (PTree V) := ⟨.node []⟩

namespace PTree

variable {V : Type}

/-- Python dict lookup on an association list (keys are unique in any list
that models an actual dict, so taking the first match is exact). -/
def lookupA : List (K × PTree V) → K → Option (PTree V)
  | [], _ => none
  | (k', v) :: t, k => if k' = k then some v else lookupA t k

/-- Python dict item assignment `d[k] = v`: replaces the value in place if
the key is present (keeping its position), appends the entry otherwise. -/
def dinsert : List (K × PTree V) → K → PTree V → List (K × PTree V)
  | [], k, v => [(k, v)]
  | (k', v') :: t, k, v => if k' = k then (k, v) :: t else (k', v') :: dinsert t k v

/-- Python dict `d.pop(k)`: removes the entry with the given key. -/
def dremove : List (K × PTree V) → K → List (K × PTree V)
  | [], _ => []
  | (k', v') :: t, k => if k' = k then t else (k', v') :: dremove t k

/-- Python `k in d`. -/
def hasKeyA (d : List (K × PTree V)) (k : K) : Bool :=
  (lookupA d k).isSome

/-- `collections.defaultdict(list)` append: `m[k].append(x)`; creates the
list on first use (the key is then appended at the end of the dict). -/
def dappend : List (K × List (K × PTree V)) → K → (K × PTree V) →
    List (K × List (K × PTree V))
  | [], k, x => [(k, [x])]
  | (k', xs) :: t, k, x =>
      if k' = k then (k', xs ++ [x]) :: t else (k', xs) :: dappend t k x

end PTree

open PTree

/-- Key list of a dict. -/
def keysOf {V : Type} (d : List (K × PTree V)) : List K := d.map Prod.fst

/-- Models Python `k.split(sep, 1)` together with the test `sep in k`:
returns `none` when the separator does not occur in `k`, and otherwise the
parts before and after its first occurrence. -/
def splitFirst : K → Option (K × K)
  | [] => none
  | c :: rest =>
      if c = sepc then some ([], rest)
      else (splitFirst rest).map (fun p => (c :: p.1, p.2))

/-- `path = parent_key + sep + k if parent_key else k` from `_flatten_dict`. -/
def joinKey (parent k : K) : K :=
  if parent = [] then k else parent ++ sepc :: k

mutual

/-- The recursion of `_flatten_dict` applied to one value sitting at `path`:
a tensor leaf is emitted as a single entry; a dict is walked; an explicitly
empty dict reached through a non-empty path is kept as an entry
(`if parent_key and not d: items.append((parent_key, {}))`). -/
def flattenPT {V : Type} : PTree V → K → List (K × PTree V)
  | .leaf x, path => [(path, .leaf x)]
  | .node d, path =>
      flattenL d path ++
        (if path ≠ [] ∧ d.isEmpty then [(path, .node [])] else [])

/-- The `for k, v in d.items()` loop of `_flatten_dict`. -/
def flattenL {V : Type} : List (K × PTree V) → K → List (K × PTree V)
  | [], _ => []
  | (k, v) :: t, path => flattenPT v (joinKey path k) ++ flattenL t path

end

/-- Python `dict(items)`: builds a dict from a pair list; a later duplicate
key overrides the stored value but keeps the original position. -/
def dictify {V : Type} (items : List (K × PTree V)) : List (K × PTree V) :=
  items.foldl (fun acc p => dinsert acc p.1 p.2) []

/-- `_flatten_dict(d)` with the default arguments `parent_key=''`, `sep='/'`. -/
def _flatten_dict {V : Type} (d : List (K × PTree V)) : List (K × PTree V) :=
  dictify (flattenL d [])

mutual

/-- Python `==` on parameter trees (dict equality is order-insensitive:
same key set and recursively equal values; tensors compare by `==`). -/
def pyBeq {V : Type} [DecidableEq V] : PTree V → PTree V → Bool
  | .leaf a, .leaf b => decide (a = b)
  | .node xs, .node ys => decide (xs.length = ys.length) && pyAll xs ys
  | _, _ => false

/-- Every entry of `xs` is present in `ys` with a `pyBeq`-equal value. -/
def pyAll {V : Type} [DecidableEq V] :
    List (K × PTree V) → List (K × PTree V) → Bool
  | [], _ => true
  | (k, v) :: t, ys =>
      (match lookupA ys k with
       | some w => pyBeq v w
       | none => false) && pyAll t ys

end

/-- `decide (k ≠ [] ∧ sepc ∉ k)`: a well-formed dict key is a non-empty
string not containing the path separator. -/
def keyOk (k : K) : Bool := decide (k ≠ [] ∧ sepc ∉ k)

mutual

/-- Well-formedness of a tree value: every dict below it is well-formed. -/
def wfT {V : Type} : PTree V → Bool
  | .leaf _ => true
  | .node d => wfD d

/-- Well-formedness of a dict: keys are pairwise distinct (as in any Python
dict), non-empty and separator-free, and all sub-trees are well-formed. -/
def wfD {V : Type} : List (K × PTree V) → Bool
  | [] => true
  | (k, v) :: t => keyOk k && decide (k ∉ t.map Prod.fst) && wfT v && wfD t

end

/-! Termination measure and supporting lemmas for `recover_tree`. -/

/-- Total key length (plus one per entry) of a flat pair list; the tail
lists handed to the recursive calls of `recover_tree` are strictly
smaller in this measure. -/
def keyWeight {V : Type} (kvs : List (K × PTree V)) : Nat :=
  (kvs.map (fun p => p.1.length + 1)).sum

theorem splitFirst_length {k l r : K} (h : splitFirst k = some (l, r)) :
    k.length = l.length + 1 + r.length := by
  induction k generalizing l r with
  | nil => simp [splitFirst] at h
  | cons c rest ih =>
    by_cases hc : c = sepc
    · rw [splitFirst, if_pos hc] at h
      have h1 : ([] : K) = l := congrArg Prod.fst (Option.some.inj h)
      have h2 : rest = r := congrArg Prod.snd (Option.some.inj h)
      subst h1; subst h2
      simp only [List.length_cons, List.length_nil]
      omega
    · rw [splitFirst, if_neg hc] at h
      rcases Option.map_eq_some'.mp h with ⟨⟨l0, r0⟩, hs, hf⟩
      have h1 : c :: l0 = l := congrArg Prod.fst hf
      have h2 : r0 = r := congrArg Prod.snd hf
      subst h1; subst h2
      have := ih hs
      simp only [List.length_cons]
      omega

/-- The grouping step of `recover_tree`'s first loop, isolated for the
termination argument. -/
def subStep {V : Type} (s : List (K × List (K × PTree V))) (p : K × PTree V) :
    List (K × List (K × PTree V)) :=
  match splitFirst p.1 with
  | none => s
  | some (l, r) => dappend s l (r, p.2)

theorem mem_dappend {V : Type} {s : List (K × List (K × PTree V))} {k : K}
    {x : K × PTree V} {l : K} {pairs : List (K × PTree V)}
    (h : (l, pairs) ∈ dappend s k x) :
    (l, pairs) ∈ s ∨ (l = k ∧ ∃ pre, pairs = pre ++ [x] ∧
      (pre = [] ∨ (l, pre) ∈ s)) := by
  induction s with
  | nil =>
    simp [dappend] at h
    exact Or.inr ⟨h.1, [], by simp [h.2], Or.inl rfl⟩
  | cons e t ih =>
    obtain ⟨k', xs⟩ := e
    by_cases hk : k' = k
    · subst hk
      simp only [dappend, if_pos rfl] at h
      rcases List.mem_cons.mp h with h | h
      · have h1 : l = k' := congrArg Prod.fst h
        have h2 : pairs = xs ++ [x] := congrArg Prod.snd h
        exact Or.inr ⟨h1, xs, h2,
          Or.inr (by rw [h1]; exact List.mem_cons_self _ _)⟩
      · exact Or.inl (List.mem_cons_of_mem _ h)
    · simp only [dappend, if_neg hk] at h
      rcases List.mem_cons.mp h with h | h
      · exact Or.inl (by rw [h]; exact List.mem_cons_self _ _)
      · rcases ih h with h' | ⟨h1, pre, h2, h3⟩
        · exact Or.inl (List.mem_cons_of_mem _ h')
        · refine Or.inr ⟨h1, pre, h2, ?_⟩
          rcases h3 with h3 | h3
          · exact Or.inl h3
          · exact Or.inr (List.mem_cons_of_mem _ h3)

/-- Every pair list stored by folding `subStep` has key weight bounded by
the accumulator bound plus the weight of the processed entries. -/
theorem keyWeight_foldl_subStep {V : Type} :
    ∀ (kvs : List (K × PTree V)) (s₀ : List (K × List (K × PTree V)))
      (B : Nat),
      (∀ l pairs, (l, pairs) ∈ s₀ → keyWeight pairs < B) →
      ∀ l pairs, (l, pairs) ∈ kvs.foldl subStep s₀ →
        keyWeight pairs < B + keyWeight kvs := by
  intro kvs
  induction kvs with
  | nil =>
    intro s₀ B h0 l pairs hm
    simpa [keyWeight] using h0 l pairs hm
  | cons e rest ih =>
    intro s₀ B h0 l pairs hm
    rw [List.foldl_cons] at hm
    have hstep : ∀ l pairs, (l, pairs) ∈ subStep s₀ e →
        keyWeight pairs < B + (e.1.length + 1) := by
      intro l pairs h
      unfold subStep at h
      cases hs : splitFirst e.1 with
      | none =>
        rw [hs] at h
        exact lt_of_lt_of_le (h0 l pairs h) (by omega)
      | some lr =>
        obtain ⟨l0, r⟩ := lr
        rw [hs] at h
        rcases mem_dappend h with h' | ⟨h1, pre, h2, h3⟩
        · exact lt_of_lt_of_le (h0 l pairs h') (by omega)
        · have hlen := splitFirst_length hs
          subst h2
          have hw : keyWeight (pre ++ [(r, e.2)]) =
              keyWeight pre + (r.length + 1) := by
            simp [keyWeight]
          rcases h3 with h3 | h3
          · subst h3; simp [keyWeight] at hw ⊢; omega
          · have := h0 l pre h3
            omega
    have := ih (subStep s₀ e) (B + (e.1.length + 1)) hstep l pairs hm
    have hkw : keyWeight (e :: rest) = (e.1.length + 1) + keyWeight rest := by
      simp [keyWeight]
    omega

/-- The body of the first loop of `recover_tree`: keys without a separator
are assigned into the `tree` dict, the others are appended to the
`sub_trees` group of their segment before the first separator. -/
def recStep {V : Type}
    (a : List (K × PTree V) × List (K × List (K × PTree V)))
    (p : K × PTree V) :
    List (K × PTree V) × List (K × List (K × PTree V)) :=
  match splitFirst p.1 with
  | none => (dinsert a.1 p.1 p.2, a.2)
  | some (l, r) => (a.1, dappend a.2 l (r, p.2))

theorem snd_foldl_recStep {V : Type} :
    ∀ (l : List (K × PTree V))
      (a : List (K × PTree V) × List (K × List (K × PTree V))),
      (l.foldl recStep a).2 = l.foldl subStep a.2 := by
  intro l
  induction l with
  | nil => intro a; rfl
  | cons e t ih =>
    intro a
    rw [List.foldl_cons, List.foldl_cons, ih]
    unfold recStep subStep
    cases splitFirst e.1 with
    | none => rfl
    | some lr => cases lr; rfl

theorem fst_foldl_recStep {V : Type} :
    ∀ (l : List (K × PTree V))
      (a : List (K × PTree V) × List (K × List (K × PTree V))),
      (l.foldl recStep a).1 =
        l.foldl (fun t p =>
          match splitFirst p.1 with
          | none => dinsert t p.1 p.2
          | some _ => t) a.1 := by
  intro l
  induction l with
  | nil => intro a; rfl
  | cons e t ih =>
    intro a
    rw [List.foldl_cons, List.foldl_cons, ih]
    unfold recStep
    cases splitFirst e.1 with
    | none => rfl
    | some lr => cases lr; rfl

/-- `recover_tree(keys, values)` from the source: the flat key/value pairs
are walked once; separator-free keys are assigned directly, the others are
grouped by their segment before the first separator; each group is then
recovered recursively and assigned.  The two accumulators of the loop are a
dict (`tree`) and a `defaultdict(list)` (`sub_trees`). -/
def recover_tree {V : Type} (kvs : List (K × PTree V)) : PTree V :=
  let acc := kvs.foldl recStep ([], [])
  .node (acc.2.attach.foldl
    (fun t q => dinsert t q.1.1 (recover_tree q.1.2)) acc.1)
termination_by keyWeight kvs
decreasing_by
  have hq : q.1 ∈ (kvs.foldl recStep ([], [])).2 := q.2
  have hq2 : q.1 ∈ kvs.foldl subStep [] := by
    rw [← snd_foldl_recStep kvs ([], [])]; exact hq
  have hm : (q.1.1, q.1.2) ∈ kvs.foldl subStep [] := by simpa using hq2
  have := keyWeight_foldl_subStep kvs [] 0 (by simp) q.1.1 q.1.2 hm
  simpa using this

/-! Basic dict lemmas. -/

theorem lookupA_dinsert_self {V : Type} (d : List (K × PTree V)) (k : K)
    (v : PTree V) : lookupA (dinsert d k v) k = some v := by
  induction d with
  | nil => simp [dinsert, lookupA]
  | cons e t ih =>
    obtain ⟨k', v'⟩ := e
    by_cases hk : k' = k
    · simp [dinsert, hk, lookupA]
    · simp [dinsert, hk, lookupA, ih]

theorem lookupA_dinsert_ne {V : Type} (d : List (K × PTree V)) (k k0 : K)
    (v : PTree V) (h : k ≠ k0) :
    lookupA (dinsert d k v) k0 = lookupA d k0 := by
  induction d with
  | nil => simp [dinsert, lookupA, h]
  | cons e t ih =>
    obtain ⟨k', v'⟩ := e
    by_cases hk : k' = k
    · subst hk
      simp [dinsert, lookupA, h]
    · simp [dinsert, hk, lookupA, ih]

theorem keysOf_dinsert {V : Type} (d : List (K × PTree V)) (k : K)
    (v : PTree V) :
    keysOf (dinsert d k v) =
      if k ∈ keysOf d then keysOf d else keysOf d ++ [k] := by
  induction d with
  | nil => simp [dinsert, keysOf]
  | cons e t ih =>
    obtain ⟨k', v'⟩ := e
    by_cases hk : k' = k
    · subst hk
      simp [dinsert, keysOf]
    · have hne : ¬(k = k') := fun h => hk h.symm
      have hstep : dinsert ((k', v') :: t) k v = (k', v') :: dinsert t k v := by
        simp [dinsert, hk]
      rw [hstep]
      by_cases hmem : k ∈ keysOf t
      · have hmem2 : k ∈ keysOf ((k', v') :: t) := by
          simp [keysOf] at hmem ⊢
          exact Or.inr hmem
        rw [if_pos hmem2]
        show k' :: keysOf (dinsert t k v) = _
        rw [ih, if_pos hmem]
        rfl
      · have hmem2 : k ∉ keysOf ((k', v') :: t) := by
          simp only [keysOf, List.map_cons, List.mem_cons, not_or]
          exact ⟨hne, by simpa [keysOf] using hmem⟩
        rw [if_neg hmem2]
        show k' :: keysOf (dinsert t k v) = _
        rw [ih, if_neg hmem]
        rfl

theorem nodup_keysOf_dinsert {V : Type} (d : List (K × PTree V)) (k : K)
    (v : PTree V) (h : (keysOf d).Nodup) :
    (keysOf (dinsert d k v)).Nodup := by
  rw [keysOf_dinsert]
  by_cases hmem : k ∈ keysOf d
  · simpa [hmem] using h
  · simp only [hmem, if_neg]
    simpa [List.nodup_append] using ⟨h, fun h' => hmem h'⟩

theorem nodup_keysOf_dictify {V : Type} (l : List (K × PTree V)) :
    (keysOf (dictify l)).Nodup := by
  have main : ∀ (l : List (K × PTree V)) (acc : List (K × PTree V)),
      (keysOf acc).Nodup → (keysOf (l.foldl
        (fun acc p => dinsert acc p.1 p.2) acc)).Nodup := by
    intro l
    induction l with
    | nil => intro acc h; simpa using h
    | cons e t ih =>
      intro acc h
      rw [List.foldl_cons]
      exact ih _ (nodup_keysOf_dinsert acc e.1 e.2 h)
  exact main l [] (by simp [keysOf])

theorem lookupA_foldl_dinsert_const_mem {V : Type} (c : PTree V) :
    ∀ (ks : List K) (params : List (K × PTree V)) (k : K),
      ks.Nodup → k ∈ ks →
      lookupA (ks.foldl (fun p k0 => dinsert p k0 c) params) k = some c := by
  have stable : ∀ (ks : List K) (params : List (K × PTree V)) (k : K),
      k ∉ ks →
      lookupA (ks.foldl (fun p k0 => dinsert p k0 c) params) k =
        lookupA params k := by
    intro ks
    induction ks with
    | nil => intro params k _; rfl
    | cons e t ih =>
      intro params k hk
      rw [List.foldl_cons, ih _ _ (fun h => hk (List.mem_cons_of_mem _ h))]
      exact lookupA_dinsert_ne _ _ _ _ (fun h => hk (h ▸ List.mem_cons_self _ _))
  intro ks
  induction ks with
  | nil => intro params k _ hk; simp at hk
  | cons e t ih =>
    intro params k hnd hk
    rw [List.foldl_cons]
    rcases List.mem_cons.mp hk with h | h
    · subst h
      rw [stable t _ k (by simpa using (List.nodup_cons.mp hnd).1)]
      exact lookupA_dinsert_self _ _ _
    · exact ih _ k (List.nodup_cons.mp hnd).2 h

/-! `inspect_params` and the schema-mismatch error. -/

/-- The errors the checkpoint adapter can raise: `keyError` is a Python
`KeyError` from a dict subscript, `notADict` a subscript or item assignment
applied to a tensor, `attrError` an attribute access (`.shape`) on a dict,
`valueError` a numpy/scipy shape failure, and `schemaMismatch` the
`ValueError` raised by `inspect_params` (the spec's SchemaMismatchError),
carrying the missing, extra, restored and expected key sets. -/
inductive LoadError where
  | keyError : K → LoadError
  | notADict : K → LoadError
  | attrError : LoadError
  | valueError : LoadError
  | schemaMismatch : List K → List K → List K → List K → LoadError
deriving DecidableEq

instance {E A : Type} [DecidableEq E] [DecidableEq A] :
    DecidableEq (Except E A) := fun a b =>
  match a, b with
  | .error e1, .error e2 =>
    if h : e1 = e2 then isTrue (by rw [h])
    else isFalse (fun hc => h (Except.error.inj hc))
  | .ok v1, .ok v2 =>
    if h : v1 = v2 then isTrue (by rw [h])
    else isFalse (fun hc => h (Except.ok.inj hc))
  | .error _, .ok _ => isFalse (fun hc => Except.noConfusion hc)
  | .ok _, .error _ => isFalse (fun hc => Except.noConfusion hc)

/-- `missing_keys = expected_flat.keys() - params_flat.keys()`. -/
def missingKeysOf {V : Type} (params expected : List (K × PTree V)) :
    List K :=
  (keysOf (_flatten_dict expected)).filter
    (fun k => (lookupA (_flatten_dict params) k).isNone)

/-- `extra_keys = params_flat.keys() - expected_flat.keys()`. -/
def extraKeysOf {V : Type} (params expected : List (K × PTree V)) :
    List K :=
  (keysOf (_flatten_dict params)).filter
    (fun k => (lookupA (_flatten_dict expected) k).isNone)

/-- `isinstance(expected_flat[k], dict) and not expected_flat[k]`. -/
def isEmptyDictAt {V : Type} (flat : List (K × PTree V)) (k : K) : Bool :=
  match lookupA flat k with
  | some (.node []) => true
  | _ => false

/-- The `empty_keys` set collected by `inspect_params`. -/
def emptyKeysOf {V : Type} (params expected : List (K × PTree V)) : List K :=
  (missingKeysOf params expected).filter
    (isEmptyDictAt (_flatten_dict expected))

/-- The restored params after the `params[k] = \x7b\x7d` recovery loop of
`inspect_params` (note: `k` is a flat joined key, assigned as a top-level
entry of the nested `params` dict). -/
def recoveredParams {V : Type} (params expected : List (K × PTree V)) :
    List (K × PTree V) :=
  (emptyKeysOf params expected).foldl
    (fun p k => dinsert p k (.node [])) params

/-- `missing_keys -= empty_keys`. -/
def missingAfter {V : Type} (params expected : List (K × PTree V)) :
    List K :=
  (missingKeysOf params expected).filter
    (fun k => !(isEmptyDictAt (_flatten_dict expected) k))

/-- `inspect_params(params=..., expected=..., fail_if_extra=...,
fail_if_missing=...)` from the source: flattens both trees, recovers
explicitly-empty expected sub-trees, and raises iff missing keys remain
with `fail_if_missing` or extra keys exist with `fail_if_extra`. -/
def inspect_params {V : Type} (params expected : List (K × PTree V))
    (fail_if_extra fail_if_missing : Bool) :
    Except LoadError (List (K × PTree V)) :=
  if (!(missingAfter params expected).isEmpty && fail_if_missing) ||
     (!(extraKeysOf params expected).isEmpty && fail_if_extra) then
    .error (.schemaMismatch (missingAfter params expected)
      (extraKeysOf params expected)
      (keysOf (_flatten_dict params)) (keysOf (_flatten_dict expected)))
  else
    .ok (recoveredParams params expected)

/-- Tensors: rank-3 arrays of rationals, `[batch, tokens, channels]`;
other leaves of a checkpoint (head kernels, prompts, ...) are carried
opaquely in the same type since the adapter never inspects their shape. -/
abbrev Tensor : Type := List (List (List ℚ))

/-- Parameter trees with tensor leaves, as handled by `load_pretrained`. -/
abbrev TreeD : Type := List (K × PTree Tensor)

/-- C4: `inspect_params` raises a SchemaMismatchError iff
(`fail_if_missing` and the post-recovery missing set is non-empty) or
(`fail_if_extra` and the extra set is non-empty); the error carries the
missing, extra, restored and expected key sets; with both flags false it
never raises, for any pair of input trees. -/
theorem c4_inspect_raises_iff {V : Type}
    (params expected : List (K × PTree V)) (fe fm : Bool) :
    ((∃ e, inspect_params params expected fe fm = .error e) ↔
      ((fm = true ∧ missingAfter params expected ≠ []) ∨
       (fe = true ∧ extraKeysOf params expected ≠ []))) ∧
    (∀ e, inspect_params params expected fe fm = .error e →
      e = .schemaMismatch (missingAfter params expected)
        (extraKeysOf params expected)
        (keysOf (_flatten_dict params)) (keysOf (_flatten_dict expected))) ∧
    inspect_params params expected false false =
      .ok (recoveredParams params expected) := by
  refine ⟨?_, ?_, ?_⟩
  · unfold inspect_params
    by_cases hc : ((!(missingAfter params expected).isEmpty && fm) ||
        (!(extraKeysOf params expected).isEmpty && fe)) = true
    · rw [if_pos hc]
      constructor
      · intro _
        rcases Bool.or_eq_true_iff.mp hc with h | h
        · rcases Bool.and_eq_true_iff.mp h with ⟨h1, h2⟩
          exact Or.inl ⟨h2, by simpa [List.isEmpty_iff] using h1⟩
        · rcases Bool.and_eq_true_iff.mp h with ⟨h1, h2⟩
          exact Or.inr ⟨h2, by simpa [List.isEmpty_iff] using h1⟩
      · intro _; exact ⟨_, rfl⟩
    · rw [if_neg hc]
      constructor
      · rintro ⟨e, he⟩
        exact Except.noConfusion he
      · intro h
        exfalso
        apply hc
        rcases h with ⟨h1, h2⟩ | ⟨h1, h2⟩
        · exact Bool.or_eq_true_iff.mpr (Or.inl (Bool.and_eq_true_iff.mpr
            ⟨by simpa [List.isEmpty_iff] using h2, h1⟩))
        · exact Bool.or_eq_true_iff.mpr (Or.inr (Bool.and_eq_true_iff.mpr
            ⟨by simpa [List.isEmpty_iff] using h2, h1⟩))
  · unfold inspect_params
    by_cases hc : ((!(missingAfter params expected).isEmpty && fm) ||
        (!(extraKeysOf params expected).isEmpty && fe)) = true
    · rw [if_pos hc]
      intro e he
      exact (Except.error.inj he).symm
    · rw [if_neg hc]
      intro e he
      exact Except.noConfusion he
  · simp [inspect_params]

/-- C1 (counterexample): for `expected = \x7b"a": \x7b"norm": \x7b\x7d\x7d\x7d` and
`restored = \x7b\x7d`, `inspect_params` with `fail_if_missing=True` does
succeed, but it returns the dict with the single top-level key `"a/norm"`
(the flat joined key), which under Python `==` is not the nested tree
`\x7b"a": \x7b"norm": \x7b\x7d\x7d\x7d` the claim asserts. -/
theorem c1_counterexample :
    inspect_params ([] : TreeD)
      [("a".data, .node [("norm".data, .node [])])] true true =
      .ok [("a/norm".data, .node [])] ∧
    pyBeq (PTree.node ([("a/norm".data, .node [])] : TreeD))
      (.node [("a".data, .node [("norm".data, .node [])])]) = false := by
  constructor
  · rfl
  · rfl

/-- C1 (amended): for every missing key whose expected value is an
explicitly empty sub-tree, `inspect_params` succeeds in removing it from
the missing set, but the empty sub-tree is injected under the flat
separator-joined key as a new top-level entry of the restored tree, not at
the nested path. -/
theorem c1_empty_key_recovery {V : Type}
    (params expected : List (K × PTree V)) (fe fm : Bool) (k : K)
    (hk : k ∈ emptyKeysOf params expected) :
    lookupA (recoveredParams params expected) k = some (.node []) ∧
    k ∉ missingAfter params expected ∧
    ∀ p, inspect_params params expected fe fm = .ok p →
      lookupA p k = some (.node []) := by
  have hnodup : (emptyKeysOf params expected).Nodup := by
    have h1 : (keysOf (_flatten_dict expected)).Nodup :=
      nodup_keysOf_dictify _
    exact (List.Nodup.filter _ (List.Nodup.filter _ h1))
  have h1 : lookupA (recoveredParams params expected) k = some (.node []) :=
    lookupA_foldl_dinsert_const_mem _ _ params k hnodup hk
  refine ⟨h1, ?_, ?_⟩
  · intro hmem
    have h2 := (List.mem_filter.mp hmem).2
    have h3 := (List.mem_filter.mp hk).2
    rw [h3] at h2
    simp at h2
  · intro p hp
    unfold inspect_params at hp
    by_cases hc : ((!(missingAfter params expected).isEmpty && fm) ||
        (!(extraKeysOf params expected).isEmpty && fe)) = true
    · rw [if_pos hc] at hp
      exact Except.noConfusion hp
    · rw [if_neg hc] at hp
      rw [← Except.ok.inj hp]
      exact h1

/-- Witness for C1's amended theorem at the claim's concrete input. -/
theorem c1_empty_key_recovery_witness :
    ("a/norm".data ∈ emptyKeysOf ([] : TreeD)
      [("a".data, .node [("norm".data, .node [])])]) ∧
    (lookupA (recoveredParams ([] : TreeD)
        [("a".data, .node [("norm".data, .node [])])]) "a/norm".data =
      some (.node []) ∧
    "a/norm".data ∉ missingAfter ([] : TreeD)
      [("a".data, .node [("norm".data, .node [])])] ∧
    ∀ p, inspect_params ([] : TreeD)
        [("a".data, .node [("norm".data, .node [])])] true true = .ok p →
      lookupA p "a/norm".data = some (.node [])) :=
  ⟨by decide,
   c1_empty_key_recovery ([] : TreeD)
     [("a".data, .node [("norm".data, .node [])])] true true
     "a/norm".data (by decide)⟩

/-! Mutual induction principle for trees and entry lists, together with
size functions used to justify it. -/

mutual

/-- Size of a tree (for induction). -/
def tsize {V : Type} : PTree V → Nat
  | .leaf _ => 1
  | .node d => 1 + lsize d

/-- Size of an entry list (for induction). -/
def lsize {V : Type} : List (K × PTree V) → Nat
  | [] => 0
  | (_, v) :: t => tsize v + 1 + lsize t

end

theorem tsize_pos {V : Type} (v : PTree V) : 1 ≤ tsize v := by
  cases v with
  | leaf x => rw [tsize]
  | node d => rw [tsize]; omega

theorem ptree_mutual_ind {V : Type} (P : PTree V → Prop)
    (Q : List (K × PTree V) → Prop)
    (hleaf : ∀ x, P (.leaf x))
    (hnode : ∀ d, Q d → P (.node d))
    (hnil : Q [])
    (hcons : ∀ k v t, P v → Q t → Q ((k, v) :: t)) :
    (∀ v, P v) ∧ ∀ d, Q d := by
  have key : ∀ n, (∀ v : PTree V, tsize v ≤ n → P v) ∧
      (∀ d : List (K × PTree V), lsize d ≤ n → Q d) := by
    intro n
    induction n with
    | zero =>
      constructor
      · intro v hv
        exact absurd (le_trans (tsize_pos v) hv) (by omega)
      · intro d hd
        cases d with
        | nil => exact hnil
        | cons e t =>
          obtain ⟨k, v⟩ := e
          have := tsize_pos v
          rw [lsize] at hd
          omega
    | succ n ih =>
      constructor
      · intro v hv
        cases v with
        | leaf x => exact hleaf x
        | node d =>
          refine hnode d (ih.2 d ?_)
          simp [tsize] at hv
          omega
      · intro d hd
        cases d with
        | nil => exact hnil
        | cons e t =>
          obtain ⟨k, v⟩ := e
          rw [lsize] at hd
          have := tsize_pos v
          exact hcons k v t (ih.1 v (by omega)) (ih.2 t (by omega))
  exact ⟨fun v => (key (tsize v)).1 v le_rfl, fun d => (key (lsize d)).2 d le_rfl⟩

theorem lsize_lt_of_mem {V : Type} {d : List (K × PTree V)} {k : K}
    {v : PTree V} (h : (k, v) ∈ d) : tsize v + 1 ≤ lsize d := by
  induction d with
  | nil => simp at h
  | cons e t ih =>
    obtain ⟨k0, v0⟩ := e
    rcases List.mem_cons.mp h with h | h
    · have h2 : v = v0 := congrArg Prod.snd h
      subst h2
      rw [lsize]
      omega
    · have := ih h
      rw [lsize]
      omega

/-! Basic facts about `splitFirst` and `joinKey`. -/

theorem splitFirst_of_not_mem {k : K} (h : sepc ∉ k) : splitFirst k = none := by
  induction k with
  | nil => rfl
  | cons c rest ih =>
    have hc : ¬(c = sepc) := fun he => h (he ▸ List.mem_cons_self _ _)
    rw [splitFirst, if_neg hc, ih (fun hm => h (List.mem_cons_of_mem _ hm))]
    rfl

theorem splitFirst_append {p q : K} (h : sepc ∉ p) :
    splitFirst (p ++ sepc :: q) = some (p, q) := by
  induction p with
  | nil => simp [splitFirst]
  | cons c rest ih =>
    have hc : ¬(c = sepc) := fun he => h (he ▸ List.mem_cons_self _ _)
    rw [List.cons_append, splitFirst, if_neg hc,
      ih (fun hm => h (List.mem_cons_of_mem _ hm))]
    rfl

theorem joinKey_nil (k : K) : joinKey [] k = k := rfl

theorem joinKey_cons {p : K} (k : K) (h : p ≠ []) :
    joinKey p k = p ++ sepc :: k := by
  rw [joinKey, if_neg h]

theorem sep_not_mem_of_keyOk {k : K} (h : keyOk k = true) : sepc ∉ k := by
  simp [keyOk] at h
  exact h.2

theorem ne_nil_of_keyOk {k : K} (h : keyOk k = true) : k ≠ [] := by
  simp [keyOk] at h
  exact h.1

/-! Unfolding equations for the mutual `flatten` functions. -/

theorem flattenPT_leaf {V : Type} (x : V) (path : K) :
    flattenPT (.leaf x) path = [(path, .leaf x)] := by
  rw [flattenPT]

theorem flattenPT_node {V : Type} (d : List (K × PTree V)) (path : K) :
    flattenPT (.node d) path =
      flattenL d path ++
        (if path ≠ [] ∧ d.isEmpty then [(path, .node [])] else []) := by
  rw [flattenPT]

theorem flattenL_nil {V : Type} (path : K) :
    flattenL ([] : List (K × PTree V)) path = [] := by
  rw [flattenL]

theorem flattenL_cons {V : Type} (k : K) (v : PTree V)
    (t : List (K × PTree V)) (path : K) :
    flattenL ((k, v) :: t) path =
      flattenPT v (joinKey path k) ++ flattenL t path := by
  rw [flattenL]

/-- Prefixing a flat entry with `p` and a separator. -/
def prefixE {V : Type} (p : K) (e : K × PTree V) : K × PTree V :=
  (p ++ sepc :: e.1, e.2)

/-- Shift lemma: flattening below a separated path `p ++ sepc :: q` yields
the entries of flattening below `q`, with `p ++ sepc` prepended to every
key.  (`q ≠ []` keeps the empty-dict emission condition on both sides.) -/
theorem flatten_shift {V : Type} :
    (∀ v : PTree V, ∀ p q : K, q ≠ [] →
      flattenPT v (p ++ sepc :: q) = (flattenPT v q).map (prefixE p)) ∧
    (∀ d : List (K × PTree V), ∀ p q : K, q ≠ [] →
      flattenL d (p ++ sepc :: q) = (flattenL d q).map (prefixE p)) := by
  refine ptree_mutual_ind _ _ ?_ ?_ ?_ ?_
  · intro x p q _
    rw [flattenPT_leaf, flattenPT_leaf]
    rfl
  · intro d ihd p q hq
    rw [flattenPT_node, flattenPT_node, List.map_append, ihd p q hq]
    congr 1
    by_cases he : d.isEmpty
    · have h1 : (p ++ sepc :: q) ≠ [] := by simp
      rw [if_pos ⟨h1, he⟩, if_pos ⟨hq, he⟩]
      rfl
    · rw [if_neg (fun h => he h.2), if_neg (fun h => he h.2)]
      rfl
  · intro p q _
    rw [flattenL_nil, flattenL_nil]
    rfl
  · intro k v t ihv iht p q hq
    rw [flattenL_cons, flattenL_cons, List.map_append, iht p q hq]
    congr 1
    have hq2 : joinKey q k = q ++ sepc :: k := joinKey_cons k hq
    have hp2 : joinKey (p ++ sepc :: q) k = (p ++ sepc :: q) ++ sepc :: k := by
      rw [joinKey_cons k (by simp)]
    rw [hp2, hq2]
    have : (p ++ sepc :: q) ++ sepc :: k = p ++ sepc :: (q ++ sepc :: k) := by
      simp
    rw [this, ihv p (q ++ sepc :: k) (by simp)]

/-! Key-shape facts about flattened entries. -/

/-- Every entry produced below a non-empty `path` has a key that is `path`
itself or an extension `path ++ sepc :: r`; the entries of a dict walk are
always strict extensions. -/
theorem flatten_key_shape {V : Type} :
    (∀ v : PTree V, ∀ path : K, path ≠ [] →
      ∀ e ∈ flattenPT v path, e.1 = path ∨ ∃ r, e.1 = path ++ sepc :: r) ∧
    (∀ d : List (K × PTree V), ∀ path : K, path ≠ [] →
      ∀ e ∈ flattenL d path, ∃ r, e.1 = path ++ sepc :: r) := by
  refine ptree_mutual_ind _ _ ?_ ?_ ?_ ?_
  · intro x path _ e he
    rw [flattenPT_leaf] at he
    rcases List.mem_singleton.mp he with rfl
    exact Or.inl rfl
  · intro d ihd path hp e he
    rw [flattenPT_node] at he
    rcases List.mem_append.mp he with he | he
    · exact Or.inr (ihd path hp e he)
    · by_cases hc : path ≠ [] ∧ d.isEmpty
      · rw [if_pos hc] at he
        rcases List.mem_singleton.mp he with rfl
        exact Or.inl rfl
      · rw [if_neg hc] at he
        simp at he
  · intro path _ e he
    rw [flattenL_nil] at he
    simp at he
  · intro k v t ihv iht path hp e he
    rw [flattenL_cons] at he
    rcases List.mem_append.mp he with he | he
    · rw [joinKey_cons k hp] at he
      rcases ihv (path ++ sepc :: k) (by simp) e he with h | ⟨r, hr⟩
      · exact ⟨k, h⟩
      · refine ⟨k ++ sepc :: r, ?_⟩
        rw [hr]
        simp
    · exact iht path hp e he

/-- Flattening a dict below a non-empty separator-free single-segment path
`k` produces the root-relative entries with `k ++ sepc` prepended,
provided every key of the dict is non-empty. -/
theorem flattenL_prefix {V : Type} (sub : List (K × PTree V)) (k : K)
    (hk : k ≠ []) (hkeys : ∀ p ∈ sub, p.1 ≠ ([] : K)) :
    flattenL sub k = (flattenL sub []).map (prefixE k) := by
  induction sub with
  | nil => rw [flattenL_nil, flattenL_nil]; rfl
  | cons e t ih =>
    obtain ⟨k0, v0⟩ := e
    have hk0 : k0 ≠ [] := hkeys (k0, v0) (List.mem_cons_self _ _)
    rw [flattenL_cons, flattenL_cons, List.map_append]
    congr 1
    · rw [joinKey_cons k0 hk, joinKey_nil]
      exact flatten_shift.1 v0 k k0 hk0
    · exact ih (fun p hp => hkeys p (List.mem_cons_of_mem _ hp))

/-- A leaf entry or an explicitly empty dict: the child values whose
flattening is a single entry keyed by the child key itself. -/
def isLeafOrEmpty {V : Type} : PTree V → Bool
  | .leaf _ => true
  | .node [] => true
  | .node (_ :: _) => false

/-- Flattening a tree below a non-empty path, or a non-empty dict whose
head key is non-empty (or whose walk path is non-empty), never produces
the empty list. -/
theorem flatten_ne_nil {V : Type} :
    (∀ v : PTree V, ∀ path : K, path ≠ [] → flattenPT v path ≠ []) ∧
    (∀ d : List (K × PTree V), ∀ path : K, ∀ e : K × PTree V,
      ∀ t : List (K × PTree V), d = e :: t →
      (path ≠ [] ∨ e.1 ≠ ([] : K)) → flattenL d path ≠ []) := by
  refine ptree_mutual_ind _ _ ?_ ?_ ?_ ?_
  · intro x path _
    rw [flattenPT_leaf]
    simp
  · intro d ihd path hp
    rw [flattenPT_node]
    cases d with
    | nil =>
      rw [if_pos ⟨hp, rfl⟩]
      simp
    | cons e t =>
      intro hcontra
      rcases List.append_eq_nil.mp hcontra with ⟨h1, _⟩
      exact ihd path e t rfl (Or.inl hp) h1
  · intro path e t hd _
    exact absurd hd (by simp)
  · intro k v t ihv _ path e t0 hd hor
    have hk : e = (k, v) := by
      have := congrArg (fun l => List.head? l) hd
      simpa using this.symm
    rw [flattenL_cons]
    intro hcontra
    rcases List.append_eq_nil.mp hcontra with ⟨h1, _⟩
    have hjoin : joinKey path k ≠ [] := by
      by_cases hp : path = []
      · rcases hor with hor | hor
        · exact absurd hp hor
        · rw [hp, joinKey_nil]
          rw [hk] at hor
          exact hor
      · rw [joinKey_cons k hp]
        simp
    exact ihv (joinKey path k) hjoin h1

/-! Well-formedness accessors and lookup lemmas. -/

theorem wfD_cons {V : Type} {k : K} {v : PTree V} {t : List (K × PTree V)}
    (h : wfD ((k, v) :: t) = true) :
    keyOk k = true ∧ k ∉ t.map Prod.fst ∧ wfT v = true ∧ wfD t = true := by
  rw [wfD] at h
  simp only [Bool.and_eq_true, decide_eq_true_eq] at h
  exact ⟨h.1.1.1, h.1.1.2, h.1.2, h.2⟩

theorem wfT_node {V : Type} (d : List (K × PTree V)) :
    wfT (.node d) = wfD d := by
  rw [wfT]

theorem wfD_mem {V : Type} {d : List (K × PTree V)} {k : K} {v : PTree V}
    (hd : wfD d = true) (h : (k, v) ∈ d) :
    keyOk k = true ∧ wfT v = true := by
  induction d with
  | nil => simp at h
  | cons e t ih =>
    obtain ⟨k0, v0⟩ := e
    obtain ⟨hk0, _, hv0, ht⟩ := wfD_cons hd
    rcases List.mem_cons.mp h with h | h
    · have h1 : k = k0 := congrArg Prod.fst h
      have h2 : v = v0 := congrArg Prod.snd h
      subst h1; subst h2
      exact ⟨hk0, hv0⟩
    · exact ih ht h

theorem wfD_keys_ne_nil {V : Type} {d : List (K × PTree V)}
    (hd : wfD d = true) : ∀ p ∈ d, p.1 ≠ ([] : K) := by
  intro p hp
  obtain ⟨k, v⟩ := p
  exact ne_nil_of_keyOk (wfD_mem hd hp).1

theorem lookupA_eq_none {V : Type} {d : List (K × PTree V)} {k : K}
    (h : k ∉ keysOf d) : lookupA d k = none := by
  induction d with
  | nil => rfl
  | cons e t ih =>
    obtain ⟨k0, v0⟩ := e
    have h1 : ¬(k0 = k) := by
      intro he
      exact h (by simp [keysOf, he])
    rw [lookupA, if_neg h1]
    exact ih (fun hm => h (by simp [keysOf] at hm ⊢; exact Or.inr hm))

theorem lookupA_of_mem_nodup {V : Type} {d : List (K × PTree V)}
    (hnd : (keysOf d).Nodup) {k : K} {v : PTree V} (h : (k, v) ∈ d) :
    lookupA d k = some v := by
  induction d with
  | nil => simp at h
  | cons e t ih =>
    obtain ⟨k0, v0⟩ := e
    simp only [keysOf, List.map_cons, List.nodup_cons] at hnd
    rcases List.mem_cons.mp h with h | h
    · have h1 : k = k0 := congrArg Prod.fst h
      have h2 : v = v0 := congrArg Prod.snd h
      subst h1; subst h2
      rw [lookupA, if_pos rfl]
    · have hne : ¬(k0 = k) := by
        intro he
        subst he
        exact hnd.1 (by simpa [keysOf] using List.mem_map_of_mem Prod.fst h)
      rw [lookupA, if_neg hne]
      exact ih hnd.2 h

theorem mem_of_lookupA {V : Type} {d : List (K × PTree V)} {k : K}
    {v : PTree V} (h : lookupA d k = some v) : (k, v) ∈ d := by
  induction d with
  | nil => exact absurd h (by simp [lookupA])
  | cons e t ih =>
    obtain ⟨k0, v0⟩ := e
    by_cases he : k0 = k
    · subst he
      rw [lookupA, if_pos rfl] at h
      have hv : v0 = v := Option.some.inj h
      subst hv
      exact List.mem_cons_self _ _
    · rw [lookupA, if_neg he] at h
      exact List.mem_cons_of_mem _ (ih h)

/-! Per-child block shape of flattened dicts. -/

theorem flattenPT_leafOrEmpty {V : Type} {v : PTree V} {k : K}
    (hv : isLeafOrEmpty v = true) (hk : k ≠ []) :
    flattenPT v k = [(k, v)] := by
  cases v with
  | leaf x => rw [flattenPT_leaf]
  | node d =>
    cases d with
    | nil =>
      rw [flattenPT_node, flattenL_nil, if_pos ⟨hk, rfl⟩]
      rfl
    | cons e t => simp [isLeafOrEmpty] at hv

theorem flattenPT_nodeNE {V : Type} {sub : List (K × PTree V)} {k : K}
    (hsub : sub ≠ []) (hk : k ≠ []) (hkeys : ∀ p ∈ sub, p.1 ≠ ([] : K)) :
    flattenPT (.node sub) k = (flattenL sub []).map (prefixE k) := by
  rw [flattenPT_node]
  have he : ¬(sub.isEmpty = true) := by
    cases sub with
    | nil => exact absurd rfl hsub
    | cons e t => simp
  rw [if_neg (fun h => he h.2), List.append_nil]
  exact flattenL_prefix sub k hk hkeys

/-- The entries of the first loop of `recover_tree` that are assigned
directly into `tree` (separator-free keys). -/
def directsOf {V : Type} (kvs : List (K × PTree V)) : List (K × PTree V) :=
  kvs.filter (fun p => (splitFirst p.1).isNone)

/-- The `sub_trees[l]` pair list accumulated by `recover_tree`'s first
loop: tails of the entries whose key starts with segment `l`. -/
def tailsFor {V : Type} (l : K) (kvs : List (K × PTree V)) :
    List (K × PTree V) :=
  kvs.filterMap (fun p =>
    match splitFirst p.1 with
    | some lr => if lr.1 = l then some (lr.2, p.2) else none
    | none => none)

theorem directsOf_append {V : Type} (a b : List (K × PTree V)) :
    directsOf (a ++ b) = directsOf a ++ directsOf b :=
  List.filter_append _ _

theorem tailsFor_append {V : Type} (l : K) (a b : List (K × PTree V)) :
    tailsFor l (a ++ b) = tailsFor l a ++ tailsFor l b :=
  List.filterMap_append _ _ _

theorem directsOf_map_prefixE {V : Type} (k : K) (hsep : sepc ∉ k)
    (l : List (K × PTree V)) : directsOf (l.map (prefixE k)) = [] := by
  refine List.filter_eq_nil_iff.mpr ?_
  intro p hp
  rcases List.mem_map.mp hp with ⟨e, _, he⟩
  subst he
  show ¬((splitFirst (k ++ sepc :: e.1)).isNone = true)
  rw [splitFirst_append hsep]
  simp

theorem tailsFor_map_prefixE_self {V : Type} (k : K) (hsep : sepc ∉ k)
    (l : List (K × PTree V)) : tailsFor k (l.map (prefixE k)) = l := by
  induction l with
  | nil => rfl
  | cons e t ih =>
    obtain ⟨r, w⟩ := e
    show tailsFor k ((k ++ sepc :: r, w) :: t.map (prefixE k)) = (r, w) :: t
    unfold tailsFor
    rw [List.filterMap_cons]
    simp only [splitFirst_append hsep, if_pos rfl]
    exact congrArg (List.cons (r, w)) ih

theorem tailsFor_map_prefixE_ne {V : Type} {k l : K} (hsep : sepc ∉ k)
    (hne : k ≠ l) (xs : List (K × PTree V)) :
    tailsFor l (xs.map (prefixE k)) = [] := by
  induction xs with
  | nil => rfl
  | cons e t ih =>
    obtain ⟨r, w⟩ := e
    show tailsFor l ((k ++ sepc :: r, w) :: t.map (prefixE k)) = []
    unfold tailsFor
    rw [List.filterMap_cons]
    simp only [splitFirst_append hsep, if_neg hne]
    exact ih

theorem tailsFor_singleton_sepfree {V : Type} {k l : K} (hsep : sepc ∉ k)
    (v : PTree V) : tailsFor l [(k, v)] = [] := by
  unfold tailsFor
  rw [List.filterMap_cons]
  simp only [splitFirst_of_not_mem hsep]
  rfl

/-- Characterization of the groups of `recover_tree` on the flattening of
a well-formed dict: the group of segment `l` is exactly the root-relative
flattening of the non-empty sub-dict stored at key `l`, when there is one,
and empty otherwise. -/
theorem tailsFor_flattenL {V : Type} (d : List (K × PTree V))
    (h : wfD d = true) (l : K) :
    tailsFor l (flattenL d []) =
      (match lookupA d l with
       | some (.node sub) => if sub.isEmpty then [] else flattenL sub []
       | _ => ([] : List (K × PTree V))) := by
  induction d with
  | nil => rfl
  | cons e t ih =>
    obtain ⟨k, v⟩ := e
    obtain ⟨hk, hknot, hv, ht⟩ := wfD_cons h
    have hksep : sepc ∉ k := sep_not_mem_of_keyOk hk
    have hknil : k ≠ [] := ne_nil_of_keyOk hk
    rw [flattenL_cons, joinKey_nil, tailsFor_append, ih ht]
    by_cases hkl : k = l
    · subst hkl
      have hnone : lookupA t k = none :=
        lookupA_eq_none (by simpa [keysOf] using hknot)
      rw [lookupA, if_pos rfl, hnone]
      cases v with
      | leaf x =>
        rw [flattenPT_leaf, tailsFor_singleton_sepfree hksep]
        rfl
      | node sub =>
        cases sub with
        | nil =>
          rw [flattenPT_leafOrEmpty (by rw [isLeafOrEmpty]) hknil,
            tailsFor_singleton_sepfree hksep]
          rfl
        | cons s0 st =>
          rw [flattenPT_nodeNE (by simp) hknil
            (wfD_keys_ne_nil (by rwa [wfT_node] at hv)),
            tailsFor_map_prefixE_self k hksep]
          simp
    · have hlk : lookupA ((k, v) :: t) l = lookupA t l := by
        rw [lookupA, if_neg hkl]
      rw [hlk]
      have hblock : tailsFor l (flattenPT v k) = [] := by
        cases v with
        | leaf x =>
          rw [flattenPT_leaf]
          exact tailsFor_singleton_sepfree hksep _
        | node sub =>
          cases sub with
          | nil =>
            rw [flattenPT_leafOrEmpty (by rw [isLeafOrEmpty]) hknil]
            exact tailsFor_singleton_sepfree hksep _
          | cons s0 st =>
            rw [flattenPT_nodeNE (by simp) hknil
              (wfD_keys_ne_nil (by rwa [wfT_node] at hv))]
            exact tailsFor_map_prefixE_ne hksep hkl _
      rw [hblock]
      rfl

/-- The direct entries of the flattening of a well-formed dict are exactly
its leaf entries and its explicitly empty sub-dict entries, in order. -/
theorem directsOf_flattenL {V : Type} (d : List (K × PTree V))
    (h : wfD d = true) :
    directsOf (flattenL d []) = d.filter (fun p => isLeafOrEmpty p.2) := by
  induction d with
  | nil => rfl
  | cons e t ih =>
    obtain ⟨k, v⟩ := e
    obtain ⟨hk, _, hv, ht⟩ := wfD_cons h
    have hksep : sepc ∉ k := sep_not_mem_of_keyOk hk
    have hknil : k ≠ [] := ne_nil_of_keyOk hk
    rw [flattenL_cons, joinKey_nil, directsOf_append, ih ht,
      List.filter_cons]
    cases v with
    | leaf x =>
      rw [flattenPT_leaf]
      have hdir : directsOf [(k, PTree.leaf x)] = [(k, PTree.leaf x)] := by
        unfold directsOf
        rw [List.filter_cons]
        simp [splitFirst_of_not_mem hksep]
      rw [hdir]
      simp [isLeafOrEmpty]
    | node sub =>
      cases sub with
      | nil =>
        rw [flattenPT_leafOrEmpty (by rw [isLeafOrEmpty]) hknil]
        have hdir : directsOf [(k, PTree.node ([] : List (K × PTree V)))] =
            [(k, PTree.node [])] := by
          unfold directsOf
          rw [List.filter_cons]
          simp [splitFirst_of_not_mem hksep]
        rw [hdir]
        simp [isLeafOrEmpty]
      | cons s0 st =>
        rw [flattenPT_nodeNE (by simp) hknil
          (wfD_keys_ne_nil (by rwa [wfT_node] at hv)),
          directsOf_map_prefixE k hksep]
        simp [isLeafOrEmpty]

/-! Distinctness of flattened keys. -/

/-- The segment of a flat key before its first separator (the whole key
when there is none). -/
def firstSeg (k : K) : K :=
  match splitFirst k with
  | none => k
  | some lr => lr.1

theorem firstSeg_of_block {V : Type} {v : PTree V} {ck : K}
    (hk : keyOk ck = true) {e : K × PTree V} (he : e ∈ flattenPT v ck) :
    firstSeg e.1 = ck := by
  have hsep : sepc ∉ ck := sep_not_mem_of_keyOk hk
  have hnil : ck ≠ [] := ne_nil_of_keyOk hk
  rcases flatten_key_shape.1 v ck hnil e he with h | ⟨r, h⟩
  · rw [firstSeg, h, splitFirst_of_not_mem hsep]
  · rw [firstSeg, h, splitFirst_append hsep]

theorem firstSeg_mem_flattenL {V : Type} {d : List (K × PTree V)}
    (hd : wfD d = true) {e : K × PTree V} (he : e ∈ flattenL d []) :
    firstSeg e.1 ∈ keysOf d := by
  induction d with
  | nil => rw [flattenL_nil] at he; simp at he
  | cons p t ih =>
    obtain ⟨k, v⟩ := p
    obtain ⟨hk, _, _, ht⟩ := wfD_cons hd
    rw [flattenL_cons, joinKey_nil] at he
    rcases List.mem_append.mp he with he | he
    · rw [firstSeg_of_block hk he]
      simp [keysOf]
    · have := ih ht he
      simp [keysOf] at this ⊢
      exact Or.inr this

/-- Flattening a well-formed dict yields pairwise-distinct keys. -/
theorem nodup_keys_flatten {V : Type} :
    (∀ v : PTree V, ∀ ck : K, keyOk ck = true → wfT v = true →
      ((flattenPT v ck).map Prod.fst).Nodup) ∧
    (∀ d : List (K × PTree V), wfD d = true →
      ((flattenL d []).map Prod.fst).Nodup) := by
  refine ptree_mutual_ind _ _ ?_ ?_ ?_ ?_
  · intro x ck _ _
    rw [flattenPT_leaf]
    simp
  · intro d ihd ck hck hwf
    cases d with
    | nil =>
      rw [flattenPT_leafOrEmpty (by rw [isLeafOrEmpty]) (ne_nil_of_keyOk hck)]
      simp
    | cons e t =>
      rw [flattenPT_nodeNE (by simp) (ne_nil_of_keyOk hck)
        (wfD_keys_ne_nil (by rwa [wfT_node] at hwf))]
      rw [List.map_map]
      have hinj : Function.Injective
          (fun r : K => ck ++ sepc :: r) := by
        intro a b hab
        exact List.cons.inj (List.append_cancel_left hab) |>.2
      have : (Prod.fst ∘ @prefixE V ck) =
          (fun r : K => ck ++ sepc :: r) ∘ Prod.fst := rfl
      rw [this, ← List.map_map]
      exact List.Nodup.map hinj (ihd (by rwa [wfT_node] at hwf))
  · intro _
    rw [flattenL_nil]
    simp
  · intro k v t ihv iht hd
    obtain ⟨hk, hknot, hv, ht⟩ := wfD_cons hd
    rw [flattenL_cons, joinKey_nil, List.map_append]
    rw [List.nodup_append]
    refine ⟨ihv k hk hv, iht ht, ?_⟩
    intro x hx hx2
    rcases List.mem_map.mp hx with ⟨e, he, hex⟩
    rcases List.mem_map.mp hx2 with ⟨e2, he2, hex2⟩
    have h1 : firstSeg x = k := hex ▸ firstSeg_of_block hk he
    have h2 : firstSeg x ∈ keysOf t := hex2 ▸ firstSeg_mem_flattenL ht he2
    rw [h1] at h2
    exact hknot (by simpa [keysOf] using h2)

/-! Characterization of the grouping fold of `recover_tree`. -/

theorem map_fst_dappend {V : Type} (s : List (K × List (K × PTree V)))
    (k : K) (x : K × PTree V) :
    (dappend s k x).map Prod.fst =
      if k ∈ s.map Prod.fst then s.map Prod.fst
      else s.map Prod.fst ++ [k] := by
  induction s with
  | nil => simp [dappend]
  | cons e t ih =>
    obtain ⟨k', xs⟩ := e
    by_cases hk : k' = k
    · subst hk
      simp [dappend]
    · rw [dappend, if_neg hk]
      by_cases hmem : k ∈ t.map Prod.fst
      · have hm2 : k ∈ ((k', xs) :: t).map Prod.fst := by
          simp only [List.map_cons, List.mem_cons]
          exact Or.inr hmem
        rw [if_pos hm2]
        show k' :: (dappend t k x).map Prod.fst = _
        rw [ih, if_pos hmem]
        rfl
      · have hm2 : k ∉ ((k', xs) :: t).map Prod.fst := by
          simp only [List.map_cons, List.mem_cons, not_or]
          exact ⟨fun h => hk h.symm, hmem⟩
        rw [if_neg hm2]
        show k' :: (dappend t k x).map Prod.fst = _
        rw [ih, if_neg hmem]
        rfl

theorem nodup_fst_dappend {V : Type} {s : List (K × List (K × PTree V))}
    (hnd : (s.map Prod.fst).Nodup) (k : K) (x : K × PTree V) :
    ((dappend s k x).map Prod.fst).Nodup := by
  rw [map_fst_dappend]
  by_cases hmem : k ∈ s.map Prod.fst
  · simpa [hmem] using hnd
  · rw [if_neg hmem, List.nodup_append]
    refine ⟨hnd, List.nodup_singleton _, ?_⟩
    intro a ha hb
    exact hmem ((List.mem_singleton.mp hb) ▸ ha)

theorem mem_dappend_of_mem_ne {V : Type} {s : List (K × List (K × PTree V))}
    {l k : K} {p : List (K × PTree V)} (hne : l ≠ k) (h : (l, p) ∈ s)
    (x : K × PTree V) : (l, p) ∈ dappend s k x := by
  induction s with
  | nil => simp at h
  | cons e t ih =>
    obtain ⟨k', xs⟩ := e
    by_cases hk : k' = k
    · subst hk
      rw [dappend, if_pos rfl]
      rcases List.mem_cons.mp h with h | h
      · exact absurd (congrArg Prod.fst h) hne
      · exact List.mem_cons_of_mem _ h
    · rw [dappend, if_neg hk]
      rcases List.mem_cons.mp h with h | h
      · exact h ▸ List.mem_cons_self _ _
      · exact List.mem_cons_of_mem _ (ih h)

theorem mem_dappend_update {V : Type} {s : List (K × List (K × PTree V))}
    (hnd : (s.map Prod.fst).Nodup) {k : K} {pre : List (K × PTree V)}
    (h : (k, pre) ∈ s) (x : K × PTree V) :
    (k, pre ++ [x]) ∈ dappend s k x := by
  induction s with
  | nil => simp at h
  | cons e t ih =>
    obtain ⟨k', xs⟩ := e
    simp only [List.map_cons, List.nodup_cons] at hnd
    by_cases hk : k' = k
    · subst hk
      rw [dappend, if_pos rfl]
      rcases List.mem_cons.mp h with h | h
      · have h2 : pre = xs := congrArg Prod.snd h
        subst h2
        exact List.mem_cons_self _ _
      · exact absurd (List.mem_map_of_mem Prod.fst h) hnd.1
    · rw [dappend, if_neg hk]
      rcases List.mem_cons.mp h with h | h
      · exact absurd (congrArg Prod.fst h).symm hk
      · exact List.mem_cons_of_mem _ (ih hnd.2 h)

theorem mem_dappend_nodup {V : Type} {s : List (K × List (K × PTree V))}
    (hnd : (s.map Prod.fst).Nodup) {k l : K} {x : K × PTree V}
    {p : List (K × PTree V)} (h : (l, p) ∈ dappend s k x) :
    (l ≠ k ∧ (l, p) ∈ s) ∨
    (l = k ∧ (((∀ q, (k, q) ∉ s) ∧ p = [x]) ∨
      ∃ pre, (k, pre) ∈ s ∧ p = pre ++ [x])) := by
  induction s with
  | nil =>
    simp [dappend] at h
    exact Or.inr ⟨h.1, Or.inl ⟨by simp, h.2⟩⟩
  | cons e t ih =>
    obtain ⟨k', xs⟩ := e
    simp only [List.map_cons, List.nodup_cons] at hnd
    by_cases hk : k' = k
    · rw [dappend, if_pos hk] at h
      rcases List.mem_cons.mp h with hmem | hmem
      · have h1 : l = k' := congrArg Prod.fst hmem
        have h2 : p = xs ++ [x] := congrArg Prod.snd hmem
        refine Or.inr ⟨h1.trans hk, Or.inr ⟨xs, ?_, h2⟩⟩
        rw [← hk]
        exact List.mem_cons_self _ _
      · have hlk : l ≠ k := by
          intro he
          apply hnd.1
          rw [hk, ← he]
          exact List.mem_map_of_mem Prod.fst hmem
        exact Or.inl ⟨hlk, List.mem_cons_of_mem _ hmem⟩
    · rw [dappend, if_neg hk] at h
      rcases List.mem_cons.mp h with h | h
      · have h1 : l = k' := congrArg Prod.fst h
        exact Or.inl ⟨fun he => hk ((h1 ▸ he).symm ▸ rfl), h ▸ List.mem_cons_self _ _⟩
      · rcases ih hnd.2 h with ⟨hne, hmem⟩ | ⟨heq, hcase⟩
        · exact Or.inl ⟨hne, List.mem_cons_of_mem _ hmem⟩
        · refine Or.inr ⟨heq, ?_⟩
          rcases hcase with ⟨hnomem, hp⟩ | ⟨pre, hpre, hp⟩
          · refine Or.inl ⟨?_, hp⟩
            intro q hq
            rcases List.mem_cons.mp hq with hq | hq
            · exact hk (congrArg Prod.fst hq).symm
            · exact hnomem q hq
          · exact Or.inr ⟨pre, List.mem_cons_of_mem _ hpre, hp⟩

theorem exists_mem_dappend_self {V : Type}
    (s : List (K × List (K × PTree V))) (k : K) (x : K × PTree V) :
    ∃ q, (k, q) ∈ dappend s k x := by
  induction s with
  | nil => exact ⟨[x], by simp [dappend]⟩
  | cons e t ih =>
    obtain ⟨k', xs⟩ := e
    by_cases hk : k' = k
    · subst hk
      exact ⟨xs ++ [x], by rw [dappend, if_pos rfl]; exact List.mem_cons_self _ _⟩
    · obtain ⟨q, hq⟩ := ih
      exact ⟨q, by rw [dappend, if_neg hk]; exact List.mem_cons_of_mem _ hq⟩

theorem tailsFor_cons_none {V : Type} {e : K × PTree V}
    (he : splitFirst e.1 = none) (l : K) (rest : List (K × PTree V)) :
    tailsFor l (e :: rest) = tailsFor l rest := by
  unfold tailsFor
  rw [List.filterMap_cons, he]

theorem tailsFor_cons_some_eq {V : Type} {e : K × PTree V} {l0 : K} {r : K}
    (he : splitFirst e.1 = some (l0, r)) (rest : List (K × PTree V)) :
    tailsFor l0 (e :: rest) = (r, e.2) :: tailsFor l0 rest := by
  unfold tailsFor
  rw [List.filterMap_cons, he]
  simp

theorem tailsFor_cons_some_ne {V : Type} {e : K × PTree V} {l0 : K} {r : K}
    (he : splitFirst e.1 = some (l0, r)) {l : K} (hne : l0 ≠ l)
    (rest : List (K × PTree V)) :
    tailsFor l (e :: rest) = tailsFor l rest := by
  unfold tailsFor
  rw [List.filterMap_cons, he]
  simp [hne]

/-- Every group accumulated by the first loop of `recover_tree` extends an
initial group of the accumulator by exactly the tails of the processed
entries whose key starts with its segment; a fresh group consists exactly
of those tails and is non-empty. -/
theorem mem_foldl_subStep {V : Type} :
    ∀ (kvs : List (K × PTree V)) (s₀ : List (K × List (K × PTree V))),
      (s₀.map Prod.fst).Nodup →
      ∀ l pairs, (l, pairs) ∈ kvs.foldl subStep s₀ →
        (∃ pre, (l, pre) ∈ s₀ ∧ pairs = pre ++ tailsFor l kvs) ∨
        ((∀ pre, (l, pre) ∉ s₀) ∧ pairs = tailsFor l kvs ∧ pairs ≠ []) := by
  intro kvs
  induction kvs with
  | nil =>
    intro s₀ _ l pairs hm
    exact Or.inl ⟨pairs, hm, by simp [tailsFor]⟩
  | cons e rest ih =>
    intro s₀ hnd l pairs hm
    rw [List.foldl_cons] at hm
    cases hsp : splitFirst e.1 with
    | none =>
      have hstep : subStep s₀ e = s₀ := by rw [subStep, hsp]
      rw [hstep] at hm
      rw [tailsFor_cons_none hsp]
      exact ih s₀ hnd l pairs hm
    | some lr =>
      obtain ⟨l0, r⟩ := lr
      have hstep : subStep s₀ e = dappend s₀ l0 (r, e.2) := by
        rw [subStep, hsp]
      rw [hstep] at hm
      have hnd2 : ((dappend s₀ l0 (r, e.2)).map Prod.fst).Nodup :=
        nodup_fst_dappend hnd l0 (r, e.2)
      rcases ih _ hnd2 l pairs hm with ⟨pre2, hpre2, hp⟩ | ⟨hnomem, hp, hne⟩
      · rcases mem_dappend_nodup hnd hpre2 with ⟨hlk, hmem⟩ |
          ⟨heq, ⟨hno, hpre⟩ | ⟨pre, hprem, hpre⟩⟩
        · rw [tailsFor_cons_some_ne hsp (fun h => hlk h.symm)]
          exact Or.inl ⟨pre2, hmem, hp⟩
        · subst heq
          rw [tailsFor_cons_some_eq hsp]
          refine Or.inr ⟨fun q hq => hno q hq, ?_, by simp [hp, hpre]⟩
          rw [hp, hpre]
          simp
        · subst heq
          rw [tailsFor_cons_some_eq hsp]
          refine Or.inl ⟨pre, hprem, ?_⟩
          rw [hp, hpre]
          simp
      · by_cases hl0 : l = l0
        · exfalso
          subst hl0
          obtain ⟨q, hq⟩ := exists_mem_dappend_self s₀ l (r, e.2)
          exact hnomem q hq
        · rw [tailsFor_cons_some_ne hsp (fun h => hl0 h.symm)]
          refine Or.inr ⟨?_, hp, hne⟩
          intro pre hpre
          exact hnomem pre (mem_dappend_of_mem_ne hl0 hpre (r, e.2))

theorem nodup_fst_foldl_subStep {V : Type} :
    ∀ (kvs : List (K × PTree V)) (s₀ : List (K × List (K × PTree V))),
      (s₀.map Prod.fst).Nodup →
      ((kvs.foldl subStep s₀).map Prod.fst).Nodup := by
  intro kvs
  induction kvs with
  | nil => intro s₀ h; exact h
  | cons e rest ih =>
    intro s₀ h
    rw [List.foldl_cons]
    cases hsp : splitFirst e.1 with
    | none =>
      have hstep : subStep s₀ e = s₀ := by rw [subStep, hsp]
      rw [hstep]
      exact ih s₀ h
    | some lr =>
      obtain ⟨l0, r⟩ := lr
      have hstep : subStep s₀ e = dappend s₀ l0 (r, e.2) := by
        rw [subStep, hsp]
      rw [hstep]
      exact ih _ (nodup_fst_dappend h l0 (r, e.2))

theorem mem_fst_foldl_subStep {V : Type} :
    ∀ (kvs : List (K × PTree V)) (s₀ : List (K × List (K × PTree V)))
      (l : K),
      (l ∈ (kvs.foldl subStep s₀).map Prod.fst ↔
        l ∈ s₀.map Prod.fst ∨ tailsFor l kvs ≠ []) := by
  intro kvs
  induction kvs with
  | nil =>
    intro s₀ l
    simp [tailsFor]
  | cons e rest ih =>
    intro s₀ l
    rw [List.foldl_cons]
    cases hsp : splitFirst e.1 with
    | none =>
      have hstep : subStep s₀ e = s₀ := by rw [subStep, hsp]
      rw [hstep, tailsFor_cons_none hsp]
      exact ih s₀ l
    | some lr =>
      obtain ⟨l0, r⟩ := lr
      have hstep : subStep s₀ e = dappend s₀ l0 (r, e.2) := by
        rw [subStep, hsp]
      rw [hstep, ih]
      have hkeys : l ∈ (dappend s₀ l0 (r, e.2)).map Prod.fst ↔
          l ∈ s₀.map Prod.fst ∨ l = l0 := by
        rw [map_fst_dappend]
        by_cases hm : l0 ∈ s₀.map Prod.fst
        · rw [if_pos hm]
          constructor
          · exact Or.inl
          · intro h
            rcases h with h | h
            · exact h
            · exact h ▸ hm
        · rw [if_neg hm]
          simp [List.mem_append]
      rw [hkeys]
      by_cases hl : l = l0
      · subst hl
        rw [tailsFor_cons_some_eq hsp]
        simp
      · rw [tailsFor_cons_some_ne hsp (fun h => hl h.symm)]
        constructor
        · intro h
          rcases h with (h | h) | h
          · exact Or.inl h
          · exact absurd h hl
          · exact Or.inr h
        · intro h
          rcases h with h | h
          · exact Or.inl (Or.inl h)
          · exact Or.inr h

/-! Fresh insertions and `dict(items)` on duplicate-free lists. -/

theorem dinsert_eq_append {V : Type} {acc : List (K × PTree V)} {k : K}
    (h : k ∉ keysOf acc) (v : PTree V) :
    dinsert acc k v = acc ++ [(k, v)] := by
  induction acc with
  | nil => rfl
  | cons e t ih =>
    obtain ⟨k0, v0⟩ := e
    have h0 : ¬(k0 = k) := by
      intro he
      exact h (by simp [keysOf, he])
    rw [dinsert, if_neg h0, List.cons_append]
    exact congrArg _ (ih (fun hm => h (by simp [keysOf] at hm ⊢; exact Or.inr hm)))

theorem foldl_dinsert_id {V : Type} :
    ∀ (l acc : List (K × PTree V)), (keysOf (acc ++ l)).Nodup →
      l.foldl (fun a p => dinsert a p.1 p.2) acc = acc ++ l := by
  intro l
  induction l with
  | nil => intro acc _; simp
  | cons e t ih =>
    intro acc h
    obtain ⟨k, v⟩ := e
    have hk : k ∉ keysOf acc := by
      intro hm
      simp only [keysOf, List.map_append, List.map_cons,
        List.nodup_append] at h
      exact h.2.2 hm (by simp)
    rw [List.foldl_cons]
    show (t.foldl (fun a p => dinsert a p.1 p.2) (dinsert acc k v)) = _
    rw [dinsert_eq_append hk v, ih (acc ++ [(k, v)]) (by simpa [keysOf] using h)]
    simp

theorem dictify_eq_self {V : Type} {l : List (K × PTree V)}
    (h : (keysOf l).Nodup) : dictify l = l := by
  unfold dictify
  have := foldl_dinsert_id l [] (by simpa [keysOf] using h)
  simpa using this

theorem foldl_direct_eq {V : Type} :
    ∀ (kvs acc : List (K × PTree V)),
      (keysOf (acc ++ directsOf kvs)).Nodup →
      kvs.foldl (fun t p =>
        match splitFirst p.1 with
        | none => dinsert t p.1 p.2
        | some _ => t) acc = acc ++ directsOf kvs := by
  intro kvs
  induction kvs with
  | nil => intro acc _; simp [directsOf]
  | cons e rest ih =>
    intro acc h
    rw [List.foldl_cons]
    cases hsp : splitFirst e.1 with
    | none =>
      have hd : directsOf (e :: rest) = e :: directsOf rest := by
        unfold directsOf
        rw [List.filter_cons, if_pos (by simp [hsp])]
      rw [hd] at h
      have hk : e.1 ∉ keysOf acc := by
        intro hm
        simp only [keysOf, List.map_append, List.map_cons,
          List.nodup_append] at h
        exact h.2.2 hm (by simp)
      show rest.foldl (fun t p =>
        match splitFirst p.1 with
        | none => dinsert t p.1 p.2
        | some _ => t) (dinsert acc e.1 e.2) = acc ++ directsOf (e :: rest)
      rw [hd, dinsert_eq_append hk e.2]
      have h2 : (keysOf ((acc ++ [(e.1, e.2)]) ++ directsOf rest)).Nodup := by
        simpa [keysOf] using h
      rw [ih (acc ++ [(e.1, e.2)]) h2]
      simp
    | some lr =>
      have hd : directsOf (e :: rest) = directsOf rest := by
        unfold directsOf
        rw [List.filter_cons, if_neg (by simp [hsp])]
      rw [hd] at h
      show rest.foldl (fun t p =>
        match splitFirst p.1 with
        | none => dinsert t p.1 p.2
        | some _ => t) acc = acc ++ directsOf (e :: rest)
      rw [hd]
      exact ih acc h

theorem foldl_dinsert_pairs {V : Type}
    (f : K × List (K × PTree V) → PTree V) :
    ∀ (subs : List (K × List (K × PTree V))) (acc : List (K × PTree V)),
      (keysOf acc ++ subs.map Prod.fst).Nodup →
      subs.foldl (fun t q => dinsert t q.1 (f q)) acc =
        acc ++ subs.map (fun q => (q.1, f q)) := by
  intro subs
  induction subs with
  | nil => intro acc _; simp
  | cons q rest ih =>
    intro acc h
    have hk : q.1 ∉ keysOf acc := by
      intro hm
      simp only [List.map_cons, List.nodup_append, List.nodup_cons] at h
      exact h.2.2 hm (by simp)
    rw [List.foldl_cons, dinsert_eq_append hk (f q),
      ih (acc ++ [(q.1, f q)]) (by
        simp only [keysOf, List.map_append, List.map_cons, List.map_nil] at h ⊢
        have : (acc.map Prod.fst ++ [q.1]) ++ rest.map Prod.fst =
            acc.map Prod.fst ++ (q.1 :: rest.map Prod.fst) := by simp
        rw [this]
        exact h)]
    simp

theorem attach_foldl {α β : Type _} (l : List α) (g : β → α → β) (a : β) :
    l.attach.foldl (fun t q => g t q.1) a = l.foldl g a := by
  have h1 : l.attach.foldl (fun t q => g t q.1) a =
      (l.attach.map Subtype.val).foldl g a :=
    (List.foldl_map _ _ _ _).symm
  rw [h1, List.attach_map_subtype_val]

/-! Facts about Python tree equality `pyBeq`. -/

theorem pyBeq_node {V : Type} [DecidableEq V]
    (xs ys : List (K × PTree V)) :
    pyBeq (.node xs) (.node ys) =
      (decide (xs.length = ys.length) && pyAll xs ys) := by
  rw [pyBeq]

theorem pyAll_eq_true_iff {V : Type} [DecidableEq V] :
    ∀ (xs ys : List (K × PTree V)),
      pyAll xs ys = true ↔
        ∀ p ∈ xs, ∃ w, lookupA ys p.1 = some w ∧ pyBeq p.2 w = true := by
  intro xs
  induction xs with
  | nil =>
    intro ys
    rw [pyAll]
    simp
  | cons e t ih =>
    intro ys
    obtain ⟨k, v⟩ := e
    rw [pyAll, Bool.and_eq_true_iff]
    constructor
    · intro ⟨h1, h2⟩
      intro p hp
      rcases List.mem_cons.mp hp with hp | hp
      · subst hp
        cases hl : lookupA ys k with
        | none => rw [hl] at h1; exact absurd h1 (by simp)
        | some w =>
          rw [hl] at h1
          exact ⟨w, rfl, h1⟩
      · exact (ih ys).mp h2 p hp
    · intro h
      obtain ⟨w, hw, hbeq⟩ := h (k, v) (List.mem_cons_self _ _)
      constructor
      · rw [hw]
        exact hbeq
      · exact (ih ys).mpr (fun p hp => h p (List.mem_cons_of_mem _ hp))

theorem pyBeq_refl_leafOrEmpty {V : Type} [DecidableEq V] {v : PTree V}
    (h : isLeafOrEmpty v = true) : pyBeq v v = true := by
  cases v with
  | leaf x => rw [pyBeq]; simp
  | node d =>
    cases d with
    | nil =>
      rw [pyBeq_node]
      simp [pyAll]
    | cons e t => simp [isLeafOrEmpty] at h

theorem wfD_nodup_keys {V : Type} {d : List (K × PTree V)}
    (h : wfD d = true) : (keysOf d).Nodup := by
  induction d with
  | nil => simp [keysOf]
  | cons e t ih =>
    obtain ⟨k, v⟩ := e
    obtain ⟨_, hknot, _, ht⟩ := wfD_cons h
    simp only [keysOf, List.map_cons, List.nodup_cons]
    exact ⟨by simpa [keysOf] using hknot, by simpa [keysOf] using ih ht⟩

/-- Unfolding equation of `recover_tree` (it is defined by well-founded
recursion, so this equation is used in place of definitional reduction). -/
theorem recover_tree_def {V : Type} (kvs : List (K × PTree V)) :
    recover_tree kvs =
      .node (((kvs.foldl recStep ([], [])).2).attach.foldl
        (fun t q => dinsert t q.1.1 (recover_tree q.1.2))
        ((kvs.foldl recStep ([], [])).1)) := by
  rw [recover_tree]

theorem recover_attach_fold {V : Type} (L : List (K × List (K × PTree V)))
    (a : List (K × PTree V)) :
    L.attach.foldl (fun t q => dinsert t q.1.1 (recover_tree q.1.2)) a =
      L.foldl (fun t q => dinsert t q.1 (recover_tree q.2)) a :=
  attach_foldl L (fun t q => dinsert t q.1 (recover_tree q.2)) a

theorem foldl_dinsert_recover {V : Type}
    (subs : List (K × List (K × PTree V))) (acc : List (K × PTree V))
    (h : (keysOf acc ++ subs.map Prod.fst).Nodup) :
    subs.foldl (fun t q => dinsert t q.1 (recover_tree q.2)) acc =
      acc ++ subs.map (fun q => (q.1, recover_tree q.2)) :=
  foldl_dinsert_pairs (fun q => recover_tree q.2) subs acc h

/-- Round-trip auxiliary: `recover_tree (_flatten_dict d)` is Python-equal
to `d`, by strong induction on the size of `d`. -/
theorem unflatten_flatten_aux {V : Type} [DecidableEq V] :
    ∀ (n : Nat) (d : List (K × PTree V)), lsize d ≤ n → wfD d = true →
      pyBeq (recover_tree (_flatten_dict d)) (.node d) = true := by
  intro n
  induction n with
  | zero =>
    intro d hd _
    cases d with
    | cons e t =>
      obtain ⟨k, v⟩ := e
      rw [lsize] at hd
      have := tsize_pos v
      omega
    | nil =>
      have h1 : _flatten_dict ([] : List (K × PTree V)) = [] := rfl
      rw [h1, recover_tree_def]
      show pyBeq (PTree.node ([] : List (K × PTree V))) (.node []) = true
      rw [pyBeq_node]
      simp [pyAll]
  | succ n ih =>
    intro d hd hwf
    have hnodupflat : ((flattenL d []).map Prod.fst).Nodup :=
      nodup_keys_flatten.2 d hwf
    have hnodupd : (keysOf d).Nodup := wfD_nodup_keys hwf
    have hdict : _flatten_dict d = flattenL d [] := by
      unfold _flatten_dict
      exact dictify_eq_self (by simpa [keysOf] using hnodupflat)
    rw [hdict, recover_tree_def, recover_attach_fold,
      snd_foldl_recStep, fst_foldl_recStep]
    have hdirnodup : (keysOf (([] : List (K × PTree V)) ++
        directsOf (flattenL d []))).Nodup := by
      simp only [List.nil_append, keysOf]
      exact List.Nodup.sublist
        (List.Sublist.map _ (List.filter_sublist _)) hnodupflat
    have hdirect := foldl_direct_eq (flattenL d []) [] hdirnodup
    rw [hdirect, List.nil_append, directsOf_flattenL d hwf]
    -- the grouped part
    have hsubnodup : (((flattenL d []).foldl subStep []).map Prod.fst).Nodup :=
      nodup_fst_foldl_subStep _ [] (by simp)
    have hsubmem : ∀ l pairs, (l, pairs) ∈ (flattenL d []).foldl subStep [] →
        pairs = tailsFor l (flattenL d []) ∧ pairs ≠ [] := by
      intro l pairs hm
      rcases mem_foldl_subStep (flattenL d []) [] (by simp) l pairs hm with
        ⟨pre, hpre, _⟩ | ⟨_, h2, h3⟩
      · simp at hpre
      · exact ⟨h2, h3⟩
    have hsubkeys : ∀ l, l ∈ ((flattenL d []).foldl subStep []).map Prod.fst ↔
        tailsFor l (flattenL d []) ≠ [] := by
      intro l
      rw [mem_fst_foldl_subStep]
      simp
    have htails := tailsFor_flattenL d hwf
    have htails_ne : ∀ l, tailsFor l (flattenL d []) ≠ [] ↔
        ∃ sub, lookupA d l = some (.node sub) ∧ sub ≠ [] := by
      intro l
      rw [htails l]
      cases hl : lookupA d l with
      | none => simp
      | some v =>
        cases v with
        | leaf x => simp
        | node sub =>
          cases sub with
          | nil => simp
          | cons s0 st =>
            show flattenL (s0 :: st) [] ≠ [] ↔ _
            constructor
            · intro _
              exact ⟨s0 :: st, rfl, by simp⟩
            · intro _
              apply flatten_ne_nil.2 (s0 :: st) [] s0 st rfl
              refine Or.inr ?_
              have hmem := mem_of_lookupA hl
              have hwfv := (wfD_mem hwf hmem).2
              rw [wfT_node] at hwfv
              exact (wfD_keys_ne_nil hwfv) s0 (List.mem_cons_self _ _)
    have hdisj : (keysOf (d.filter (fun p => isLeafOrEmpty p.2)) ++
        ((flattenL d []).foldl subStep []).map Prod.fst).Nodup := by
      rw [List.nodup_append]
      refine ⟨List.Nodup.sublist
        (List.Sublist.map _ (List.filter_sublist _)) hnodupd,
        hsubnodup, ?_⟩
      intro x hx hx2
      rcases List.mem_map.mp hx with ⟨p, hp, hpx⟩
      have hpd := List.mem_filter.mp hp
      have hlp : lookupA d x = some p.2 := by
        rw [← hpx]
        exact lookupA_of_mem_nodup hnodupd hpd.1
      obtain ⟨sub, hsub, hsubne⟩ := (htails_ne x).mp ((hsubkeys x).mp hx2)
      rw [hlp] at hsub
      have hp2 : p.2 = .node sub := Option.some.inj hsub
      rw [hp2] at hpd
      cases sub with
      | nil => exact hsubne rfl
      | cons s0 st => simp [isLeafOrEmpty] at hpd
    rw [foldl_dinsert_recover _ _ hdisj]
    rw [pyBeq_node, Bool.and_eq_true_iff]
    constructor
    · -- lengths agree
      rw [decide_eq_true_eq, List.length_append, List.length_map]
      have hnodupfilterkeys :
          ((d.filter (fun p => !isLeafOrEmpty p.2)).map Prod.fst).Nodup :=
        List.Nodup.sublist
          (List.Sublist.map _ (List.filter_sublist _)) hnodupd
      have hkeysS : ∀ x,
          x ∈ ((flattenL d []).foldl subStep []).map Prod.fst ↔
          x ∈ (d.filter (fun p => !isLeafOrEmpty p.2)).map Prod.fst := by
        intro x
        rw [hsubkeys x, htails_ne x]
        constructor
        · rintro ⟨sub, hl, hne⟩
          refine List.mem_map.mpr ⟨(x, .node sub),
            List.mem_filter.mpr ⟨mem_of_lookupA hl, ?_⟩, rfl⟩
          cases sub with
          | nil => exact absurd rfl hne
          | cons s0 st => rfl
        · intro hx
          rcases List.mem_map.mp hx with ⟨p, hp, hpx⟩
          have hpd := List.mem_filter.mp hp
          cases hp2 : p.2 with
          | leaf x0 =>
            rw [hp2] at hpd
            simp [isLeafOrEmpty] at hpd
          | node sub =>
            cases sub with
            | nil =>
              rw [hp2] at hpd
              simp [isLeafOrEmpty] at hpd
            | cons s0 st =>
              refine ⟨s0 :: st, ?_, by simp⟩
              rw [← hpx]
              have hmemp : (p.1, PTree.node (s0 :: st)) ∈ d := by
                rw [← hp2]
                exact hpd.1
              exact lookupA_of_mem_nodup hnodupd hmemp
      have hcard : ((flattenL d []).foldl subStep []).length =
          (d.filter (fun p => !isLeafOrEmpty p.2)).length := by
        have h1 : (((flattenL d []).foldl subStep []).map Prod.fst).toFinset =
            ((d.filter (fun p => !isLeafOrEmpty p.2)).map Prod.fst).toFinset := by
          ext x
          simp only [List.mem_toFinset]
          exact hkeysS x
        have h2 := List.toFinset_card_of_nodup hsubnodup
        have h3 := List.toFinset_card_of_nodup hnodupfilterkeys
        have h4 : (((flattenL d []).foldl subStep []).map Prod.fst).length =
            ((d.filter (fun p => !isLeafOrEmpty p.2)).map Prod.fst).length := by
          rw [← h2, ← h3, h1]
        simpa using h4
      have htotal := @List.length_eq_length_filter_add
        _ d (fun p => isLeafOrEmpty p.2)
      rw [hcard]
      omega
    · rw [pyAll_eq_true_iff]
      intro p hp
      rcases List.mem_append.mp hp with hp | hp
      · have hpd := List.mem_filter.mp hp
        exact ⟨p.2, lookupA_of_mem_nodup hnodupd hpd.1,
          pyBeq_refl_leafOrEmpty hpd.2⟩
      · rcases List.mem_map.mp hp with ⟨q, hq, hqe⟩
        obtain ⟨hpairs, hne⟩ := hsubmem q.1 q.2 hq
        obtain ⟨sub, hlook, hsubne⟩ := (htails_ne q.1).mp (by
          rw [← hpairs]
          exact hne)
        have hie : sub.isEmpty = false := by
          cases sub with
          | nil => exact absurd rfl hsubne
          | cons s0 st => rfl
        have hpairs2 : q.2 = flattenL sub [] := by
          rw [hpairs, htails q.1, hlook]
          show (if sub.isEmpty then [] else flattenL sub []) = _
          rw [hie]
          rfl
        have hmemd := mem_of_lookupA hlook
        have hwfsub : wfD sub = true := by
          have := (wfD_mem hwf hmemd).2
          rwa [wfT_node] at this
        have hsize : lsize sub ≤ n := by
          have h1 := lsize_lt_of_mem hmemd
          rw [tsize] at h1
          omega
        have hIH := ih sub hsize hwfsub
        have hdictsub : _flatten_dict sub = flattenL sub [] := by
          unfold _flatten_dict
          exact dictify_eq_self
            (by simpa [keysOf] using nodup_keys_flatten.2 sub hwfsub)
        refine ⟨.node sub, ?_, ?_⟩
        · rw [← hqe]
          exact hlook
        · rw [← hqe]
          show pyBeq (recover_tree q.2) (.node sub) = true
          rw [hpairs2, ← hdictsub]
          exact hIH

/-- C3: for every well-formed ParameterTree — pairwise-distinct, non-empty
and separator-free keys at every level, which in particular rules out
sibling-key collisions under separator joining — recovering the flattening
returns a tree Python-equal (`==`) to the original, including when the
tree contains explicitly empty sub-trees as leaves (such an empty mapping
under a non-empty parent key is emitted by `_flatten_dict` as an entry and
reconstructed by `recover_tree`). -/
theorem c3_flatten_roundtrip {V : Type} [DecidableEq V]
    (d : List (K × PTree V)) (hwf : wfD d = true) :
    pyBeq (recover_tree (_flatten_dict d)) (.node d) = true :=
  unflatten_flatten_aux (lsize d) d le_rfl hwf

/-- Witness for C3 at a concrete tree containing an explicitly empty
sub-tree next to an ordinary tensor leaf. -/
theorem c3_flatten_roundtrip_witness :
    wfD ([("a".data, .node [("norm".data, .node [])]),
      ("x".data, .leaf [[[1]]])] : TreeD) = true ∧
    pyBeq (recover_tree (_flatten_dict
        ([("a".data, .node [("norm".data, .node [])]),
          ("x".data, .leaf [[[1]]])] : TreeD)))
      (.node [("a".data, .node [("norm".data, .node [])]),
        ("x".data, .leaf [[[1]]])]) = true :=
  ⟨by decide, c3_flatten_roundtrip _ (by decide)⟩

/-! The model configuration and the tensor pipeline of `load_pretrained`. -/

/-- One prompt-parameter group of the configuration
(`prompt_params[key].length`, `.top_k`, `.prompt_key`). -/
structure PromptCfg where
  length : Nat
  top_k : Nat
  prompt_key : Bool
deriving DecidableEq

/-- The fields of `model_config` read by `load_pretrained`:
`representation_size` (compared against `None`), `use_cls_token`
(truthiness; an absent key behaves like `False`), and the optional
`prompt_params` dict (an absent key and an empty dict are both falsy). -/
structure ModelConfig where
  representation_size : Option Nat
  use_cls_token : Bool
  prompt_params : Option (List (K × PromptCfg))

/-- Dict lookup on a prompt-parameter dict. -/
def lookupP : List (K × PromptCfg) → K → Option PromptCfg
  | [], _ => none
  | (k', v) :: t, k => if k' = k then some v else lookupP t k

def headK : K := "head".data
def kernelK : K := "kernel".data
def biasK : K := "bias".data
def preLogitsK : K := "pre_logits".data
def sharedPromptK : K := "shared_prompt".data
def taskSpecificK : K := "task_specific_prompt".data
def promptPoolK : K := "prompt_pool".data
def promptK : K := "prompt".data
def keyK : K := "key".data
def transformerK : K := "Transformer".data
def posembedK : K := "posembed_input".data
def posEmbeddingK : K := "pos_embedding".data
def promptParamsK : K := "prompt_params".data

/-- Lines 170–178 of `load_pretrained`: `token_len` starts at 0, gains one
slot if `use_cls_token` is set, and, when `prompt_params` is truthy, gains
`length * top_k` for the `prompt_pool` entry if present (the loop ranges
over `['prompt_pool']` only). -/
def computeTokenLen (cfg : ModelConfig) : Nat :=
  let t0 := 0
  let t1 := if cfg.use_cls_token then t0 + 1 else t0
  match cfg.prompt_params with
  | none => t1
  | some pp =>
      if pp.isEmpty then t1
      else [promptPoolK].foldl (fun t k =>
        match lookupP pp k with
        | some c => t + c.length * c.top_k
        | none => t) t1

/-- numpy shape of a rank-3 tensor (`[batch, tokens, channels]`), read off
the nesting lengths; exact for rectangular (well-formed) tensors. -/
def shape3 (t : Tensor) : Nat × Nat × Nat :=
  (t.length, (t.headD []).length, ((t.headD []).headD []).length)

/-- Rectangularity of a rank-3 tensor. -/
def wf3 (t : Tensor) : Bool :=
  t.all (fun m =>
    decide (m.length = (t.headD []).length) &&
    m.all (fun v => decide (v.length = ((t.headD []).headD []).length)))

/-- Integer square root, modelling `int(np.sqrt(n))`: the largest `k`
with `k * k ≤ n`, computed by a fuel-bounded climb (the fuel `n` always
suffices) so that it evaluates by plain kernel reduction. -/
def isqrtAux (n : Nat) : Nat → Nat → Nat
  | 0, acc => acc
  | f + 1, acc =>
      if (acc + 1) * (acc + 1) ≤ n then isqrtAux n f (acc + 1) else acc

/-- `int(np.sqrt(n))`. -/
def isqrt (n : Nat) : Nat := isqrtAux n n 0

/-- Input coordinate of output index `i` under scipy's order-1 zoom
(endpoints aligned: `in = i * (nIn - 1) / (nOut - 1)`). -/
def lcoord (nIn nOut i : Nat) : ℚ :=
  if nOut ≤ 1 then 0 else (i : ℚ) * ((nIn : ℚ) - 1) / ((nOut : ℚ) - 1)

/-- Scalar access into a rank-3 tensor (out-of-range reads return 0; they
only occur with interpolation weight 0 at the right boundary). -/
def at3 (g : Tensor) (i j ch : Nat) : ℚ := ((g.getD i []).getD j []).getD ch 0

/-- Linear interpolation `(1 - f) * a + f * b`. -/
def interpQ (a b f : ℚ) : ℚ := (1 - f) * a + f * b

/-- `scipy.ndimage.zoom(grid, (gs_new/gs_old, gs_new/gs_old, 1), order=1)`
modelled with exact rational arithmetic: since the grid's spatial sides
are exactly `gs_old`, the rounded output sides `round(gs_old * gs_new /
gs_old)` equal `gs_new` exactly, and the channel axis (zoom factor 1) is
the identity; values are bilinear interpolations per channel. -/
def ndzoom (g : Tensor) (gOut c : Nat) : Tensor :=
  let gIn := g.length
  (List.range gOut).map fun i =>
    (List.range gOut).map fun j =>
      let x := lcoord gIn gOut i
      let y := lcoord gIn gOut j
      let i0 := x.floor.toNat
      let j0 := y.floor.toNat
      let fi := x - (x.floor : ℚ)
      let fj := y - (y.floor : ℚ)
      (List.range c).map fun ch =>
        interpQ (interpQ (at3 g i0 j0 ch) (at3 g i0 (j0 + 1) ch) fj)
          (interpQ (at3 g (i0 + 1) j0 ch) (at3 g (i0 + 1) (j0 + 1) ch) fj)
          fi

/-- numpy C-order reshape of a flat scalar list into `rows` rows of
`cols` entries. -/
def reshapeRows (flat : List ℚ) (rows cols : Nat) : List (List ℚ) :=
  (List.range rows).map fun i => (flat.drop (i * cols)).take cols

/-- Lines 187–194 of `load_pretrained`: infer the old and new grid sides
as integer square roots, `reshape(gs_old, gs_old, -1)` (numpy raises when
the known product is zero or does not divide the element count), zoom,
and `reshape(1, gs_new*gs_new, -1)`; returns the token rows of the single
batch row of the resampled grid. -/
def gridPipeline (grid : List (List ℚ)) (ntok : Nat) :
    Except LoadError (List (List ℚ)) :=
  let gsOld := isqrt grid.length
  let gsNew := isqrt ntok
  let flat := grid.flatten
  let g2 := gsOld * gsOld
  if g2 = 0 then .error .valueError
  else if ¬ (g2 ∣ flat.length) then .error .valueError
  else
    let ch := flat.length / g2
    let grid3 := (List.range gsOld).map fun i =>
      reshapeRows ((flat.drop (i * (gsOld * ch))).take (gsOld * ch)) gsOld ch
    let z := ndzoom grid3 gsNew ch
    let flat2 := (z.map List.flatten).flatten
    let g2n := gsNew * gsNew
    if g2n = 0 then .error .valueError
    else if ¬ (g2n ∣ flat2.length) then .error .valueError
    else .ok (reshapeRows flat2 g2n (flat2.length / g2n))

/-- `jnp.tile(x, [1, n, 1])` on a `[batch, tokens, channels]` tensor:
every batch row gets its token list repeated `n` times. -/
def tile1 (t : Tensor) (n : Nat) : Tensor :=
  t.map (fun b => (List.replicate n b).flatten)

/-- `np.concatenate([posemb_tok, posemb_grid], axis=1)` followed by the
write-back: numpy requires the batch counts (here `1` for the reshaped
grid) and the channel counts to agree. -/
def finishResample (ptok : Tensor) (grid : List (List ℚ)) (ntok : Nat) :
    Except LoadError Tensor :=
  match gridPipeline grid ntok with
  | .error e => .error e
  | .ok g =>
    let c2 := (g.headD []).length
    if (ptok.length == 1) &&
        ptok.all (fun b => b.all (fun r => decide (r.length = c2))) then
      .ok (List.zipWith (fun a b => a ++ b) ptok [g])
    else .error .valueError

/-- Lines 168–195 of `load_pretrained`: split the restored embedding into
`posemb[:, :1]` (tiled to `token_len` slots) and `posemb[0, 1:]` when
`token_len > 0`, else an empty prefix and `posemb[0]`; subtract
`token_len` from the new token count (a negative count makes the
subsequent `int(np.sqrt(...))` raise) and resample the grid. -/
def resample_posemb (posemb : Tensor) (ntokNew tokenLen : Nat) :
    Except LoadError Tensor :=
  match posemb with
  | [] => .error .valueError
  | b0 :: _ =>
    if 0 < tokenLen then
      if ntokNew < tokenLen then .error .valueError
      else
        finishResample (tile1 (posemb.map (List.take 1)) tokenLen)
          (b0.drop 1) (ntokNew - tokenLen)
    else
      finishResample (posemb.map (List.take 0)) b0 ntokNew

/-! The checkpoint adapter `load_pretrained`, split into its steps. -/

/-- `d[k]` on a dict (KeyError when absent). -/
def getItem {V : Type} (d : List (K × PTree V)) (k : K) :
    Except LoadError (PTree V) :=
  match lookupA d k with
  | some v => .ok v
  | none => .error (.keyError k)

/-- `v[k]` on an arbitrary tree value (subscripting a tensor fails). -/
def getSub {V : Type} (v : PTree V) (k : K) : Except LoadError (PTree V) :=
  match v with
  | .node d => getItem d k
  | .leaf _ => .error (.notADict k)

/-- `d[k1][k2]`. -/
def getSub2 {V : Type} (d : List (K × PTree V)) (k1 k2 : K) :
    Except LoadError (PTree V) :=
  match getItem d k1 with
  | .error e => .error e
  | .ok v => getSub v k2

/-- An assignment target `d[k1][...] = ...` must be a dict. -/
def asNode {V : Type} : PTree V → Except LoadError (List (K × PTree V))
  | .node d => .ok d
  | .leaf _ => .error (.notADict [])

/-- `.shape` is read off a tensor; on a dict it fails. -/
def asLeaf {V : Type} : PTree V → Except LoadError V
  | .leaf t => .ok t
  | .node _ => .error .attrError

/-- `d[k1][k2][k3]` ending in a tensor. -/
def getLeaf3 {V : Type} (d : List (K × PTree V)) (k1 k2 k3 : K) :
    Except LoadError V :=
  match getItem d k1 with
  | .error e => .error e
  | .ok v1 =>
    match getSub v1 k2 with
    | .error e => .error e
    | .ok v2 =>
      match getSub v2 k3 with
      | .error e => .error e
      | .ok v3 => asLeaf v3

/-- Nested lookup along a key path. -/
def treeGet {V : Type} (d : List (K × PTree V)) : List K → Option (PTree V)
  | [] => none
  | [k] => lookupA d k
  | k :: rest =>
    match lookupA d k with
    | some (.node d2) => treeGet d2 rest
    | _ => none

/-- Lines 146–149: with `representation_size` unset, drop a legacy
`pre_logits` sub-tree from the restored params. -/
def preLogitsStep (R : TreeD) (cfg : ModelConfig) : TreeD :=
  if cfg.representation_size = none then
    if hasKeyA R preLogitsK then dremove R preLogitsK else R
  else R

/-- Lines 150–151: `restored['head']['kernel'] = init['head']['kernel']`
and `restored['head']['bias'] = init['head']['bias']` (each statement
evaluates its right-hand side first). -/
def headStep (R init_params : TreeD) : Except LoadError TreeD :=
  match getSub2 init_params headK kernelK with
  | .error e => .error e
  | .ok ik =>
    match getItem R headK with
    | .error e => .error e
    | .ok rh =>
      match asNode rh with
      | .error e => .error e
      | .ok rhd =>
        let R1 := dinsert R headK (.node (dinsert rhd kernelK ik))
        match getSub2 init_params headK biasK with
        | .error e => .error e
        | .ok ib =>
          match getItem R1 headK with
          | .error e => .error e
          | .ok rh2 =>
            match asNode rh2 with
            | .error e => .error e
            | .ok rhd2 =>
              .ok (dinsert R1 headK (.node (dinsert rhd2 biasK ib)))

/-- One turn of the loop in lines 153–159 for group key `gk`: if the group
is expected but missing from the restored tree, create it, copy the
`prompt` tensor, and for the prompt pool also copy the `key` tensor when
`model_config['prompt_params']['prompt_pool'].prompt_key` holds. -/
def promptOne (R init_params : TreeD) (cfg : ModelConfig) (gk : K) :
    Except LoadError TreeD :=
  if hasKeyA init_params gk && !(hasKeyA R gk) then
    let R1 := dinsert R gk (.node [])
    match getSub2 init_params gk promptK with
    | .error e => .error e
    | .ok ip =>
      match getItem R1 gk with
      | .error e => .error e
      | .ok rv =>
        match asNode rv with
        | .error e => .error e
        | .ok rvd =>
          let R2 := dinsert R1 gk (.node (dinsert rvd promptK ip))
          if gk = promptPoolK then
            match cfg.prompt_params with
            | none => .error (.keyError promptParamsK)
            | some pp =>
              match lookupP pp promptPoolK with
              | none => .error (.keyError promptPoolK)
              | some pc =>
                if pc.prompt_key then
                  match getSub2 init_params gk keyK with
                  | .error e => .error e
                  | .ok ikv =>
                    match getItem R2 gk with
                    | .error e => .error e
                    | .ok rv2 =>
                      match asNode rv2 with
                      | .error e => .error e
                      | .ok rvd2 =>
                        .ok (dinsert R2 gk (.node (dinsert rvd2 keyK ikv)))
                else .ok R2
          else .ok R2
  else .ok R

/-- Lines 153–159: the loop over the three optional prompt groups. -/
def promptStep (R init_params : TreeD) (cfg : ModelConfig) :
    Except LoadError TreeD :=
  match promptOne R init_params cfg sharedPromptK with
  | .error e => .error e
  | .ok R1 =>
    match promptOne R1 init_params cfg taskSpecificK with
    | .error e => .error e
    | .ok R2 => promptOne R2 init_params cfg promptPoolK

/-- Lines 161–196: when the restored `Transformer` dict has a
`posembed_input` entry, compare the positional-embedding shapes and
resample on mismatch, writing the result back at the same path. -/
def posembStep (R init_params : TreeD) (cfg : ModelConfig) :
    Except LoadError TreeD :=
  match lookupA R transformerK with
  | some (.node tr) =>
    if hasKeyA tr posembedK then
      match getItem tr posembedK with
      | .error e => .error e
      | .ok pv =>
        match pv with
        | .leaf _ => .error (.notADict posEmbeddingK)
        | .node pd =>
          match getItem pd posEmbeddingK with
          | .error e => .error e
          | .ok pe =>
            match asLeaf pe with
            | .error e => .error e
            | .ok posemb =>
              match getLeaf3 init_params transformerK posembedK
                  posEmbeddingK with
              | .error e => .error e
              | .ok pnew =>
                if shape3 posemb = shape3 pnew then .ok R
                else
                  match resample_posemb posemb (shape3 pnew).2.1
                      (computeTokenLen cfg) with
                  | .error e => .error e
                  | .ok pe2 =>
                    .ok (dinsert R transformerK (.node (dinsert tr
                      posembedK (.node (dinsert pd posEmbeddingK
                        (.leaf pe2))))))
    else .ok R
  | _ => .ok R

/-- `load_pretrained(pretrained_path=..., init_params=..., model_config=...)`
with the checkpoint tree already loaded: reconcile with both failure flags
off, drop `pre_logits` when head variants demand it, overwrite the head,
inject missing prompt groups, and resample the positional embedding
(`flax.core.freeze` does not change the tree's contents). -/
def load_pretrained (restored init_params : TreeD) (cfg : ModelConfig) :
    Except LoadError TreeD :=
  match inspect_params restored init_params false false with
  | .error e => .error e
  | .ok R0 =>
    let R1 := preLogitsStep R0 cfg
    match headStep R1 init_params with
    | .error e => .error e
    | .ok R2 =>
      match promptStep R2 init_params cfg with
      | .error e => .error e
      | .ok R3 => posembStep R3 init_params cfg

/-- C8: `token_len` is exactly (1 if `use_cls_token` else 0) plus
`length * top_k` for the `prompt_pool` entry of `prompt_params` when
present; no other configuration field contributes. -/
theorem c8_token_len (cfg : ModelConfig) :
    computeTokenLen cfg =
      (if cfg.use_cls_token then 1 else 0) +
      (match cfg.prompt_params with
       | none => 0
       | some pp =>
         match lookupP pp promptPoolK with
         | some c => c.length * c.top_k
         | none => 0) := by
  obtain ⟨rs, cls, pp⟩ := cfg
  unfold computeTokenLen
  cases pp with
  | none => cases cls <;> simp
  | some l =>
    cases l with
    | nil => cases cls <;> simp [lookupP]
    | cons e t =>
      have hie : (e :: t).isEmpty = false := rfl
      cases hl : lookupP (e :: t) promptPoolK <;> cases cls <;>
        simp [hl, hie, List.foldl_cons, List.foldl_nil]

theorem gridPipeline_ok_grid_ne_nil {grid : List (List ℚ)} {n : Nat}
    {g : List (List ℚ)} (h : gridPipeline grid n = .ok g) : grid ≠ [] := by
  intro hc
  subst hc
  rw [show gridPipeline ([] : List (List ℚ)) n = .error .valueError from rfl]
    at h
  exact Except.noConfusion h

theorem getD_append_lt {α : Type} (l l2 : List α) (i : Nat) (d : α)
    (h : i < l.length) : (l ++ l2).getD i d = l.getD i d := by
  induction l generalizing i with
  | nil => simp at h
  | cons a t ih =>
    cases i with
    | zero => rfl
    | succ i =>
      simp only [List.length_cons] at h
      show (t ++ l2).getD i d = t.getD i d
      exact ih i (by omega)

theorem getD_replicate_lt {α : Type} (n i : Nat) (a d : α) (h : i < n) :
    (List.replicate n a).getD i d = a := by
  induction n generalizing i with
  | zero => omega
  | succ n ih =>
    cases i with
    | zero => rfl
    | succ i =>
      show (List.replicate n a).getD i d = a
      exact ih i (by omega)

theorem flatten_replicate_singleton {α : Type} (n : Nat) (a : α) :
    (List.replicate n [a]).flatten = List.replicate n a := by
  induction n with
  | zero => rfl
  | succ n ih =>
    show [a] ++ (List.replicate n [a]).flatten = a :: List.replicate n a
    rw [ih]
    rfl

/-- C2 (amended): with `token_len > 0` the resampler splits the restored
embedding at index 1, not at `token_len`: the prefix is `posemb[:, :1]`
tiled `token_len` times — every prefix slot equals the first restored
token — while the spatial-grid segment is computed from `posemb[0, 1:]`,
the tokens from index 1 onward (so restored tokens at indices
`1, ..., token_len - 1` feed the resampled grid, not the prefix). -/
theorem c2_resample_split (posemb : Tensor) (ntokNew tokenLen : Nat)
    (htl : 0 < tokenLen) (out : Tensor)
    (hok : resample_posemb posemb ntokNew tokenLen = .ok out) :
    ∃ b0 rest g,
      posemb = b0 :: rest ∧
      gridPipeline (b0.drop 1) (ntokNew - tokenLen) = .ok g ∧
      out = List.zipWith (fun a b => a ++ b)
        (tile1 (posemb.map (List.take 1)) tokenLen) [g] ∧
      ∀ i, i < tokenLen → (out.headD []).getD i [] = b0.getD 0 [] := by
  cases posemb with
  | nil =>
    rw [show resample_posemb ([] : Tensor) ntokNew tokenLen =
      .error .valueError from rfl] at hok
    exact Except.noConfusion hok
  | cons b0 rest =>
    have hok2 : (if 0 < tokenLen then
        if ntokNew < tokenLen then (.error .valueError : Except LoadError Tensor)
        else finishResample (tile1 ((b0 :: rest).map (List.take 1)) tokenLen)
          (b0.drop 1) (ntokNew - tokenLen)
      else finishResample ((b0 :: rest).map (List.take 0)) b0 ntokNew) =
        .ok out := hok
    rw [if_pos htl] at hok2
    by_cases hle : ntokNew < tokenLen
    · rw [if_pos hle] at hok2
      exact Except.noConfusion hok2
    · rw [if_neg hle] at hok2
      unfold finishResample at hok2
      cases hg : gridPipeline (b0.drop 1) (ntokNew - tokenLen) with
      | error e =>
        rw [hg] at hok2
        exact Except.noConfusion hok2
      | ok g =>
        rw [hg] at hok2
        set ptok := tile1 ((b0 :: rest).map (List.take 1)) tokenLen with hptok
        have hok3 : (if ((ptok.length == 1) && ptok.all
            (fun b => b.all (fun r =>
              decide (r.length = (g.headD []).length)))) = true
            then (Except.ok (List.zipWith (fun a b => a ++ b) ptok [g]) :
              Except LoadError Tensor)
            else .error .valueError) = .ok out := hok2
        by_cases hcond : ((ptok.length == 1) && ptok.all
            (fun b => b.all (fun r =>
              decide (r.length = (g.headD []).length)))) = true
        · rw [if_pos hcond] at hok3
          have hout : out = List.zipWith (fun a b => a ++ b) ptok [g] :=
            (Except.ok.inj hok3).symm
          refine ⟨b0, rest, g, rfl, hg, hout, ?_⟩
          intro i hi
          have hb0 : b0.drop 1 ≠ [] := gridPipeline_ok_grid_ne_nil hg
          cases b0 with
          | nil => exact absurd rfl hb0
          | cons r0 b0t =>
            have hhead : out.headD [] =
                (List.replicate tokenLen r0) ++ g := by
              rw [hout, hptok]
              show ((List.replicate tokenLen ((r0 :: b0t).take 1)).flatten
                ++ g) = _
              rw [show (r0 :: b0t).take 1 = [r0] from rfl,
                flatten_replicate_singleton]
            rw [hhead, getD_append_lt _ _ _ _ (by simpa using hi),
              getD_replicate_lt _ _ _ _ hi]
            rfl
        · rw [if_neg hcond] at hok3
          exact Except.noConfusion hok3

unseal Rat.mul Rat.add Rat.sub Rat.inv in
/-- C2 (counterexample): with `token_len = 2` the resampler does not split
the restored embedding at `token_len`.  Two embeddings of shape [1, 5, 1]
that agree at token 0 and on every token from index `token_len = 2`
onward — differing only at token index 1 — resample (to 6 tokens) into
outputs whose sections from slot `token_len` on differ, so restored token
1 (an index below `token_len`) feeds the resampled grid; the outputs also
exhibit the actual split at index 1. -/
theorem c2_counterexample :
    resample_posemb [[[0], [1], [2], [3], [4]]] 6 2 =
      .ok [[[0], [0], [1], [2], [3], [4]]] ∧
    resample_posemb [[[0], [9], [2], [3], [4]]] 6 2 =
      .ok [[[0], [0], [9], [2], [3], [4]]] ∧
    ([[0], [1], [2], [3], [4]] : List (List ℚ)).drop 2 =
      ([[0], [9], [2], [3], [4]] : List (List ℚ)).drop 2 ∧
    ([[0], [1], [2], [3], [4]] : List (List ℚ)).getD 0 [] =
      ([[0], [9], [2], [3], [4]] : List (List ℚ)).getD 0 [] ∧
    ¬ ((([[[0], [0], [1], [2], [3], [4]]] : Tensor).headD []).drop 2 =
      (([[[0], [0], [9], [2], [3], [4]]] : Tensor).headD []).drop 2) :=
  ⟨by decide, by decide, by decide, by decide, by decide⟩

unseal Rat.mul Rat.add Rat.sub Rat.inv in
/-- Witness for C2's amended theorem at a concrete input. -/
theorem c2_resample_split_witness :
    (0 < 2 ∧ resample_posemb [[[0], [1], [2], [3], [4]]] 6 2 =
      .ok [[[0], [0], [1], [2], [3], [4]]]) ∧
    (∃ b0 rest g,
      ([[[0], [1], [2], [3], [4]]] : Tensor) = b0 :: rest ∧
      gridPipeline (b0.drop 1) (6 - 2) = .ok g ∧
      ([[[0], [0], [1], [2], [3], [4]]] : Tensor) =
        List.zipWith (fun a b => a ++ b)
          (tile1 (([[[0], [1], [2], [3], [4]]] : Tensor).map
            (List.take 1)) 2) [g] ∧
      ∀ i, i < 2 →
        (([[[0], [0], [1], [2], [3], [4]]] : Tensor).headD []).getD i [] =
          b0.getD 0 []) :=
  ⟨⟨by decide, by decide⟩,
   c2_resample_split [[[0], [1], [2], [3], [4]]] 6 2 (by decide)
     [[[0], [0], [1], [2], [3], [4]]] (by decide)⟩

theorem flatten_length_uniform {α : Type} (rows : List (List α)) (c : Nat)
    (h : ∀ r ∈ rows, r.length = c) :
    rows.flatten.length = rows.length * c := by
  induction rows with
  | nil => simp
  | cons r t ih =>
    show (r ++ t.flatten).length = _
    rw [List.length_append, h r (List.mem_cons_self _ _),
      ih (fun r2 h2 => h r2 (List.mem_cons_of_mem _ h2)),
      List.length_cons, Nat.succ_mul]
    omega

theorem reshapeRows_length (flat : List ℚ) (rows cols : Nat) :
    (reshapeRows flat rows cols).length = rows := by
  simp [reshapeRows]

theorem reshapeRows_row_length (flat : List ℚ) (rows cols : Nat)
    (h : flat.length = rows * cols) :
    ∀ r ∈ reshapeRows flat rows cols, r.length = cols := by
  intro r hr
  rcases List.mem_map.mp hr with ⟨i, hi, he⟩
  subst he
  rw [List.length_take, List.length_drop, h]
  have hi2 : i < rows := List.mem_range.mp hi
  have hle : i * cols + cols ≤ rows * cols := by
    have h1 : (i + 1) * cols ≤ rows * cols :=
      Nat.mul_le_mul_right cols hi2
    rw [Nat.succ_mul] at h1
    omega
  omega

theorem ndzoom_length (g : Tensor) (gOut c : Nat) :
    (ndzoom g gOut c).length = gOut := by
  simp [ndzoom]

theorem ndzoom_shape (g : Tensor) (gOut c : Nat) :
    ∀ r ∈ ndzoom g gOut c, r.length = gOut ∧ ∀ v ∈ r, v.length = c := by
  intro r hr
  simp only [ndzoom, List.mem_map, List.mem_range] at hr
  rcases hr with ⟨i, _, he⟩
  subst he
  constructor
  · simp
  · intro v hv
    simp only [List.mem_map, List.mem_range] at hv
    rcases hv with ⟨j, _, he2⟩
    rw [← he2]
    simp

theorem headD_mem {α : Type} {l : List α} (h : l ≠ []) (d : α) :
    l.headD d ∈ l := by
  cases l with
  | nil => exact absurd rfl h
  | cons a t => exact List.mem_cons_self _ _

/-- Shape behaviour of the grid pipeline on perfect-square token counts:
it succeeds and yields `gn * gn` token rows of the input channel width. -/
theorem gridPipeline_shape (grid : List (List ℚ)) (C go gn ntok : Nat)
    (hgo : isqrt grid.length = go) (hgo0 : go ≠ 0)
    (hglen : grid.length = go * go)
    (hgn : isqrt ntok = gn) (hgn0 : gn ≠ 0)
    (hrows : ∀ r ∈ grid, r.length = C) :
    ∃ g, gridPipeline grid ntok = .ok g ∧ g.length = gn * gn ∧
      ∀ r ∈ g, r.length = C := by
  have hflatlen : grid.flatten.length = go * go * C := by
    rw [flatten_length_uniform grid C hrows, hglen]
  have hgo2 : go * go ≠ 0 := fun h => hgo0 (by
    rcases Nat.mul_eq_zero.mp h with h | h <;> exact h)
  have hgn2 : gn * gn ≠ 0 := fun h => hgn0 (by
    rcases Nat.mul_eq_zero.mp h with h | h <;> exact h)
  have hdvd : go * go ∣ grid.flatten.length := ⟨C, hflatlen⟩
  have hch : grid.flatten.length / (go * go) = C := by
    rw [hflatlen, Nat.mul_div_cancel_left C (Nat.pos_of_ne_zero hgo2)]
  simp only [gridPipeline]
  rw [hgo, hgn, if_neg hgo2, if_neg (not_not_intro hdvd), hch]
  set grid3 := (List.range go).map (fun i =>
    reshapeRows ((grid.flatten.drop (i * (go * C))).take (go * C)) go C)
    with hgrid3
  have hflat2 : (((ndzoom grid3 gn C).map List.flatten).flatten).length =
      gn * gn * C := by
    have hall : ∀ r ∈ (ndzoom grid3 gn C).map List.flatten,
        r.length = gn * C := by
      intro r hr
      rcases List.mem_map.mp hr with ⟨row, hrow, he⟩
      subst he
      obtain ⟨hrl, hcells⟩ := ndzoom_shape grid3 gn C row hrow
      rw [flatten_length_uniform row C hcells, hrl]
    rw [flatten_length_uniform _ (gn * C) hall, List.length_map,
      ndzoom_length]
    rw [Nat.mul_assoc]
  have hdvd2 : gn * gn ∣
      (((ndzoom grid3 gn C).map List.flatten).flatten).length := by
    rw [hflat2]
    exact ⟨C, rfl⟩
  have hc2 : (((ndzoom grid3 gn C).map List.flatten).flatten).length /
      (gn * gn) = C := by
    rw [hflat2, Nat.mul_div_cancel_left C (Nat.pos_of_ne_zero hgn2)]
  rw [if_neg hgn2, if_neg (not_not_intro hdvd2), hc2]
  refine ⟨_, rfl, reshapeRows_length _ _ _, ?_⟩
  exact reshapeRows_row_length _ _ _ hflat2

/-- C6: for a rectangular restored positional embedding of shape
`[1, 197, C]` (a 14×14 grid plus one token) and an expected embedding of
shape `[1, 401, C]` (20×20 plus one token) with `token_len = 1`, the
resampler succeeds, its output has shape exactly `[1, 401, C]`, and slot 0
of the output equals slot 0 of the restored input (the special token is
carried over, not interpolated). -/
theorem c6_resample_shape (posemb pnew : Tensor) (C : Nat)
    (hwf : wf3 posemb = true)
    (hs : shape3 posemb = (1, 197, C))
    (hsn : shape3 pnew = (1, 401, C)) :
    ∃ out, resample_posemb posemb (shape3 pnew).2.1 1 = .ok out ∧
      shape3 out = (1, 401, C) ∧
      (out.headD []).getD 0 [] = (posemb.headD []).getD 0 [] := by
  have hnk : (shape3 pnew).2.1 = 401 := by rw [hsn]
  rw [hnk]
  have h1 : posemb.length = 1 := congrArg Prod.fst hs
  have h2 : (posemb.headD []).length = 197 :=
    congrArg (fun p => p.2.1) hs
  have h3 : ((posemb.headD []).headD []).length = C :=
    congrArg (fun p => p.2.2) hs
  have hwf2 : ∀ m ∈ posemb, ∀ v ∈ m, v.length = C := by
    intro m hm v hv
    have hall := (List.all_eq_true.mp hwf) m hm
    simp only [Bool.and_eq_true, List.all_eq_true, decide_eq_true_eq]
      at hall
    rw [← h3]
    exact hall.2 v hv
  cases posemb with
  | nil => simp at h1
  | cons b0 rest =>
    have hrest : rest = [] := by
      simp only [List.length_cons] at h1
      exact List.eq_nil_of_length_eq_zero (by omega)
    subst hrest
    have hb0len : b0.length = 197 := h2
    have hb0rows : ∀ v ∈ b0, v.length = C :=
      hwf2 b0 (List.mem_cons_self _ _)
    cases b0 with
    | nil => simp at hb0len
    | cons r0 b0t =>
      have hr0 : r0.length = C := hb0rows r0 (List.mem_cons_self _ _)
      have hgridlen : ((r0 :: b0t).drop 1).length = 196 := by
        rw [List.length_drop, hb0len]
      have hgridrows : ∀ r ∈ (r0 :: b0t).drop 1, r.length = C := by
        intro r hr
        exact hb0rows r (List.mem_of_mem_drop hr)
      obtain ⟨g, hgok, hg400, hgrows⟩ := gridPipeline_shape
        ((r0 :: b0t).drop 1) C 14 20 400
        (by rw [hgridlen]; decide) (by decide)
        (by rw [hgridlen]) (by decide) (by decide) hgridrows
      have hgne : g ≠ [] := by
        intro hc
        rw [hc] at hg400
        simp at hg400
      have hghead : (g.headD []).length = C :=
        hgrows (g.headD []) (headD_mem hgne [])
      have hptok : tile1 (([(r0 :: b0t)] : Tensor).map (List.take 1)) 1 =
          [[r0]] := by
        show [(List.replicate 1 ((r0 :: b0t).take 1)).flatten] = [[r0]]
        simp
      have hres : resample_posemb [(r0 :: b0t)] 401 1 =
          finishResample (tile1 (([(r0 :: b0t)] : Tensor).map
            (List.take 1)) 1) ((r0 :: b0t).drop 1) 400 := rfl
      have hcond : ((([[r0]] : Tensor).length == 1) && ([[r0]] : Tensor).all
          (fun b => b.all (fun r =>
            decide (r.length = (g.headD []).length)))) = true := by
        simp [hr0]
        rw [← hghead]
        cases g with
        | nil => rfl
        | cons a t => rfl
      have hfin : finishResample [[r0]] ((r0 :: b0t).drop 1) 400 =
          .ok (List.zipWith (fun a b => a ++ b) [[r0]] [g]) := by
        unfold finishResample
        rw [hgok]
        show (if ((([[r0]] : Tensor).length == 1) && ([[r0]] : Tensor).all
            (fun b => b.all (fun r =>
              decide (r.length = (g.headD []).length)))) = true
          then (Except.ok (List.zipWith (fun a b => a ++ b) [[r0]] [g]) :
            Except LoadError Tensor)
          else .error .valueError) = _
        rw [if_pos hcond]
      rw [hres, hptok, hfin]
      refine ⟨_, rfl, ?_, ?_⟩
      · show ((([r0] ++ g) :: List.zipWith _ [] []).length,
          ((([r0] ++ g))).length, (([r0] ++ g).headD []).length) =
          (1, 401, C)
        have hlen : ([r0] ++ g).length = 401 := by
          rw [List.length_append, hg400]
          show (1 : Nat) + 20 * 20 = 401
          rfl
        have hhead : ([r0] ++ g).headD [] = r0 := rfl
        rw [hlen, hhead, hr0]
        rfl
      · rfl

/-- Witness for C6 at a concrete 197-token, 1-channel embedding. -/
theorem c6_resample_shape_witness :
    (wf3 [List.replicate 197 [(0 : ℚ)]] = true ∧
     shape3 [List.replicate 197 [(0 : ℚ)]] = (1, 197, 1) ∧
     shape3 [List.replicate 401 [(0 : ℚ)]] = (1, 401, 1)) ∧
    (∃ out, resample_posemb [List.replicate 197 [(0 : ℚ)]]
        (shape3 [List.replicate 401 [(0 : ℚ)]]).2.1 1 = .ok out ∧
      shape3 out = (1, 401, 1) ∧
      (out.headD []).getD 0 [] =
        (([List.replicate 197 [(0 : ℚ)]] : Tensor).headD []).getD 0 []) :=
  ⟨⟨by decide, by decide, by decide⟩,
   c6_resample_shape _ _ 1 (by decide) (by decide) (by decide)⟩

/-! Step-analysis lemmas for the stages of `load_pretrained`. -/

/-- With both failure flags off, `inspect_params` always returns the
recovered params. -/
theorem inspect_params_ff {V : Type} (params expected : List (K × PTree V)) :
    inspect_params params expected false false =
      .ok (recoveredParams params expected) := by
  simp [inspect_params]

theorem treeGet_single {V : Type} (d : List (K × PTree V)) (k : K) :
    treeGet d [k] = lookupA d k := rfl

theorem treeGet_cons2 {V : Type} (d : List (K × PTree V)) (k1 k2 : K)
    (rest : List K) :
    treeGet d (k1 :: k2 :: rest) =
      (match lookupA d k1 with
       | some (.node d2) => treeGet d2 (k2 :: rest)
       | _ => none) := rfl

theorem treeGet_pair {V : Type} (d : List (K × PTree V)) (k1 k2 : K) :
    treeGet d [k1, k2] =
      (match lookupA d k1 with
       | some (.node d2) => lookupA d2 k2
       | _ => none) := by
  rw [treeGet_cons2]
  cases h : lookupA d k1 with
  | none => rfl
  | some v => cases v with
    | leaf x => rfl
    | node d2 => exact treeGet_single d2 k2

theorem getItem_ok {V : Type} {d : List (K × PTree V)} {k : K} {v : PTree V}
    (h : getItem d k = .ok v) : lookupA d k = some v := by
  unfold getItem at h
  cases h1 : lookupA d k with
  | none => rw [h1] at h; exact Except.noConfusion h
  | some w =>
    rw [h1] at h
    exact congrArg some (Except.ok.inj h)

theorem asNode_ok {V : Type} {v : PTree V} {d : List (K × PTree V)}
    (h : asNode v = .ok d) : v = .node d := by
  cases v with
  | leaf x => exact Except.noConfusion h
  | node d2 =>
    have h2 : (Except.ok d2 : Except LoadError (List (K × PTree V))) =
        .ok d := h
    rw [Except.ok.inj h2]

theorem getSub2_ok {V : Type} {d : List (K × PTree V)} {k1 k2 : K}
    {v : PTree V} (h : getSub2 d k1 k2 = .ok v) :
    treeGet d [k1, k2] = some v := by
  unfold getSub2 at h
  cases h1 : getItem d k1 with
  | error e => rw [h1] at h; exact Except.noConfusion h
  | ok v1 =>
    rw [h1] at h
    have h1' := getItem_ok h1
    cases v1 with
    | leaf x => exact Except.noConfusion h
    | node d2 =>
      have h2 : getItem d2 k2 = .ok v := h
      rw [treeGet_pair, h1']
      exact getItem_ok h2

theorem getLeaf3_of_treeGet {V : Type} {d : List (K × PTree V)}
    {k1 k2 k3 : K} {v : V}
    (h : treeGet d [k1, k2, k3] = some (.leaf v)) :
    getLeaf3 d k1 k2 k3 = .ok v := by
  rw [treeGet_cons2] at h
  cases h1 : lookupA d k1 with
  | none => rw [h1] at h; exact Option.noConfusion h
  | some v1 =>
  rw [h1] at h
  cases v1 with
  | leaf x => exact Option.noConfusion h
  | node d2 =>
  simp only [] at h
  rw [treeGet_cons2] at h
  cases h2 : lookupA d2 k2 with
  | none => rw [h2] at h; exact Option.noConfusion h
  | some v2 =>
  rw [h2] at h
  cases v2 with
  | leaf x => exact Option.noConfusion h
  | node d3 =>
  simp only [] at h
  rw [treeGet_single] at h
  unfold getLeaf3
  rw [show getItem d k1 = .ok (.node d2) from by rw [getItem, h1]]
  simp only []
  show (match getSub (.node d2) k2 with
    | .error e => (.error e : Except LoadError V)
    | .ok v2 =>
      match getSub v2 k3 with
      | .error e => .error e
      | .ok v3 => asLeaf v3) = .ok v
  rw [show getSub (PTree.node d2) k2 = .ok (.node d3) from by
    rw [getSub, getItem, h2]]
  simp only []
  show (match getSub (.node d3) k3 with
    | .error e => (.error e : Except LoadError V)
    | .ok v3 => asLeaf v3) = .ok v
  rw [show getSub (PTree.node d3) k3 = .ok (.leaf v) from by
    rw [getSub, getItem, h]]
  rfl

theorem lookupA_dremove_ne {V : Type} (d : List (K × PTree V)) (k k0 : K)
    (h : k ≠ k0) : lookupA (dremove d k) k0 = lookupA d k0 := by
  induction d with
  | nil => rfl
  | cons e t ih =>
    obtain ⟨k', v'⟩ := e
    by_cases hk : k' = k
    · subst hk
      rw [dremove, if_pos rfl, lookupA, if_neg h]
    · rw [dremove, if_neg hk, lookupA, lookupA]
      by_cases h0 : k' = k0
      · rw [if_pos h0, if_pos h0]
      · rw [if_neg h0, if_neg h0, ih]

theorem preLogitsStep_preserves (R : TreeD) (cfg : ModelConfig) (k : K)
    (h : k ≠ preLogitsK) : lookupA (preLogitsStep R cfg) k = lookupA R k := by
  unfold preLogitsStep
  by_cases h1 : cfg.representation_size = none
  · rw [if_pos h1]
    by_cases h2 : hasKeyA R preLogitsK = true
    · rw [if_pos h2]
      exact lookupA_dremove_ne R preLogitsK k h.symm
    · rw [if_neg h2]
  · rw [if_neg h1]

/-- The head-overwrite stage: on success the result holds the expected
head `kernel` and `bias` leaves and every other top-level entry of the
input is untouched. -/
theorem headStep_ok {R init_params R2 : TreeD}
    (h : headStep R init_params = .ok R2) :
    treeGet R2 [headK, kernelK] = treeGet init_params [headK, kernelK] ∧
    treeGet R2 [headK, biasK] = treeGet init_params [headK, biasK] ∧
    ∀ k, k ≠ headK → lookupA R2 k = lookupA R k := by
  unfold headStep at h
  cases h1 : getSub2 init_params headK kernelK with
  | error e => rw [h1] at h; exact Except.noConfusion h
  | ok ik =>
  rw [h1] at h
  simp only [] at h
  cases h2 : getItem R headK with
  | error e => rw [h2] at h; exact Except.noConfusion h
  | ok rh =>
  rw [h2] at h
  simp only [] at h
  cases h3 : asNode rh with
  | error e => rw [h3] at h; exact Except.noConfusion h
  | ok rhd =>
  rw [h3] at h
  simp only [] at h
  cases h4 : getSub2 init_params headK biasK with
  | error e => rw [h4] at h; exact Except.noConfusion h
  | ok ib =>
  rw [h4] at h
  simp only [] at h
  cases h5 : getItem (dinsert R headK (.node (dinsert rhd kernelK ik)))
      headK with
  | error e => rw [h5] at h; exact Except.noConfusion h
  | ok rh2 =>
  rw [h5] at h
  simp only [] at h
  cases h6 : asNode rh2 with
  | error e => rw [h6] at h; exact Except.noConfusion h
  | ok rhd2 =>
  rw [h6] at h
  simp only [] at h
  have hrh2 : rh2 = .node (dinsert rhd kernelK ik) := by
    have h5' := getItem_ok h5
    rw [lookupA_dinsert_self] at h5'
    exact (Option.some.inj h5').symm
  rw [hrh2] at h6
  have h6' : (Except.ok (dinsert rhd kernelK ik) :
      Except LoadError TreeD) = .ok rhd2 := h6
  have hrhd2 : rhd2 = dinsert rhd kernelK ik := (Except.ok.inj h6').symm
  subst hrhd2
  have hR2 : R2 = dinsert (dinsert R headK (.node (dinsert rhd kernelK ik)))
      headK (.node (dinsert (dinsert rhd kernelK ik) biasK ib)) :=
    (Except.ok.inj h).symm
  refine ⟨?_, ?_, ?_⟩
  · rw [treeGet_pair, hR2, lookupA_dinsert_self]
    show lookupA (dinsert (dinsert rhd kernelK ik) biasK ib) kernelK = _
    rw [lookupA_dinsert_ne _ _ _ _ (by decide), lookupA_dinsert_self]
    exact (getSub2_ok h1).symm
  · rw [treeGet_pair, hR2, lookupA_dinsert_self]
    show lookupA (dinsert (dinsert rhd kernelK ik) biasK ib) biasK = _
    rw [lookupA_dinsert_self]
    exact (getSub2_ok h4).symm
  · intro k hk
    rw [hR2, lookupA_dinsert_ne _ _ _ _ (fun he => hk he.symm),
      lookupA_dinsert_ne _ _ _ _ (fun he => hk he.symm)]

/-- A prompt-group turn never changes any other top-level entry. -/
theorem promptOne_preserves {R init_params : TreeD} {cfg : ModelConfig}
    {gk : K} {R' : TreeD} (h : promptOne R init_params cfg gk = .ok R')
    (k : K) (hk : k ≠ gk) : lookupA R' k = lookupA R k := by
  have hne : gk ≠ k := hk.symm
  unfold promptOne at h
  by_cases hc : (hasKeyA init_params gk && !hasKeyA R gk) = true
  · rw [if_pos hc] at h
    simp only [] at h
    cases h1 : getSub2 init_params gk promptK with
    | error e => rw [h1] at h; exact Except.noConfusion h
    | ok ip =>
    rw [h1] at h
    simp only [] at h
    cases h2 : getItem (dinsert R gk (.node [])) gk with
    | error e => rw [h2] at h; exact Except.noConfusion h
    | ok rv =>
    rw [h2] at h
    simp only [] at h
    cases h3 : asNode rv with
    | error e => rw [h3] at h; exact Except.noConfusion h
    | ok rvd =>
    rw [h3] at h
    simp only [] at h
    by_cases hp : gk = promptPoolK
    · rw [if_pos hp] at h
      cases h4 : cfg.prompt_params with
      | none => rw [h4] at h; exact Except.noConfusion h
      | some pp =>
      rw [h4] at h
      simp only [] at h
      cases h5 : lookupP pp promptPoolK with
      | none => rw [h5] at h; exact Except.noConfusion h
      | some pc =>
      rw [h5] at h
      simp only [] at h
      by_cases h6 : pc.prompt_key = true
      · rw [if_pos h6] at h
        cases h7 : getSub2 init_params gk keyK with
        | error e => rw [h7] at h; exact Except.noConfusion h
        | ok ikv =>
        rw [h7] at h
        simp only [] at h
        cases h8 : getItem (dinsert (dinsert R gk (.node [])) gk
            (.node (dinsert rvd promptK ip))) gk with
        | error e => rw [h8] at h; exact Except.noConfusion h
        | ok rv2 =>
        rw [h8] at h
        simp only [] at h
        cases h9 : asNode rv2 with
        | error e => rw [h9] at h; exact Except.noConfusion h
        | ok rvd2 =>
        rw [h9] at h
        simp only [] at h
        rw [← Except.ok.inj h, lookupA_dinsert_ne _ _ _ _ hne,
          lookupA_dinsert_ne _ _ _ _ hne, lookupA_dinsert_ne _ _ _ _ hne]
      · rw [if_neg h6] at h
        rw [← Except.ok.inj h, lookupA_dinsert_ne _ _ _ _ hne,
          lookupA_dinsert_ne _ _ _ _ hne]
    · rw [if_neg hp] at h
      rw [← Except.ok.inj h, lookupA_dinsert_ne _ _ _ _ hne,
        lookupA_dinsert_ne _ _ _ _ hne]
  · rw [if_neg hc] at h
    rw [← Except.ok.inj h]

/-- A prompt group already present in the working tree is skipped. -/
theorem promptOne_skip {R init_params : TreeD} {cfg : ModelConfig} {gk : K}
    (hR : hasKeyA R gk = true) :
    promptOne R init_params cfg gk = .ok R := by
  have hc : (hasKeyA init_params gk && !hasKeyA R gk) = false := by
    rw [hR]
    simp
  unfold promptOne
  rw [hc]
  rfl

/-- A prompt group expected but absent is created with the expected
`prompt` tensor; the pool group also gains the expected `key` tensor
exactly when the configuration's `prompt_key` flag is set. -/
theorem promptOne_created {R init_params : TreeD} {cfg : ModelConfig}
    {gk : K} {R' : TreeD}
    (hin : hasKeyA init_params gk = true) (hnot : hasKeyA R gk = false)
    (h : promptOne R init_params cfg gk = .ok R') :
    treeGet R' [gk, promptK] = treeGet init_params [gk, promptK] ∧
    (gk = promptPoolK →
      ∀ pp pc, cfg.prompt_params = some pp →
        lookupP pp promptPoolK = some pc →
        (pc.prompt_key = true →
          treeGet R' [gk, keyK] = treeGet init_params [gk, keyK]) ∧
        (pc.prompt_key = false → treeGet R' [gk, keyK] = none)) := by
  have hc : (hasKeyA init_params gk && !hasKeyA R gk) = true := by
    rw [hin, hnot]
    rfl
  unfold promptOne at h
  rw [if_pos hc] at h
  simp only [] at h
  cases h1 : getSub2 init_params gk promptK with
  | error e => rw [h1] at h; exact Except.noConfusion h
  | ok ip =>
  rw [h1] at h
  simp only [] at h
  cases h2 : getItem (dinsert R gk (.node [])) gk with
  | error e => rw [h2] at h; exact Except.noConfusion h
  | ok rv =>
  rw [h2] at h
  simp only [] at h
  cases h3 : asNode rv with
  | error e => rw [h3] at h; exact Except.noConfusion h
  | ok rvd =>
  rw [h3] at h
  simp only [] at h
  have hrv : rv = .node [] := by
    have h2' := getItem_ok h2
    rw [lookupA_dinsert_self] at h2'
    exact (Option.some.inj h2').symm
  rw [hrv] at h3
  have h3' : (Except.ok ([] : TreeD) :
      Except LoadError TreeD) = .ok rvd := h3
  have hrvd : rvd = [] := (Except.ok.inj h3').symm
  subst hrvd
  by_cases hp : gk = promptPoolK
  · rw [if_pos hp] at h
    cases h4 : cfg.prompt_params with
    | none => rw [h4] at h; exact Except.noConfusion h
    | some pp =>
    rw [h4] at h
    simp only [] at h
    cases h5 : lookupP pp promptPoolK with
    | none => rw [h5] at h; exact Except.noConfusion h
    | some pc =>
    rw [h5] at h
    simp only [] at h
    by_cases h6 : pc.prompt_key = true
    · rw [if_pos h6] at h
      cases h7 : getSub2 init_params gk keyK with
      | error e => rw [h7] at h; exact Except.noConfusion h
      | ok ikv =>
      rw [h7] at h
      simp only [] at h
      cases h8 : getItem (dinsert (dinsert R gk (.node [])) gk
          (.node (dinsert [] promptK ip))) gk with
      | error e => rw [h8] at h; exact Except.noConfusion h
      | ok rv2 =>
      rw [h8] at h
      simp only [] at h
      cases h9 : asNode rv2 with
      | error e => rw [h9] at h; exact Except.noConfusion h
      | ok rvd2 =>
      rw [h9] at h
      simp only [] at h
      have hrv2 : rv2 = .node (dinsert [] promptK ip) := by
        have h8' := getItem_ok h8
        rw [lookupA_dinsert_self] at h8'
        exact (Option.some.inj h8').symm
      rw [hrv2] at h9
      have h9' : (Except.ok (dinsert [] promptK ip) :
          Except LoadError TreeD) = .ok rvd2 := h9
      have hrvd2 : rvd2 = dinsert [] promptK ip := (Except.ok.inj h9').symm
      subst hrvd2
      have hR' : R' = dinsert (dinsert (dinsert R gk (.node [])) gk
          (.node (dinsert [] promptK ip))) gk
          (.node (dinsert (dinsert [] promptK ip) keyK ikv)) :=
        (Except.ok.inj h).symm
      constructor
      · rw [treeGet_pair, hR', lookupA_dinsert_self]
        show lookupA (dinsert (dinsert [] promptK ip) keyK ikv) promptK = _
        rw [lookupA_dinsert_ne _ _ _ _ (by decide)]
        show some ip = _
        exact (getSub2_ok h1).symm
      · intro _ pp2 pc2 hpp2 hpc2
        have hpp : pp2 = pp := (Option.some.inj hpp2).symm
        subst hpp
        have hpc : pc2 = pc := by
          rw [h5] at hpc2
          exact (Option.some.inj hpc2).symm
        subst hpc
        constructor
        · intro _
          rw [treeGet_pair, hR', lookupA_dinsert_self]
          show lookupA (dinsert (dinsert [] promptK ip) keyK ikv) keyK = _
          rw [lookupA_dinsert_self]
          exact (getSub2_ok h7).symm
        · intro hfalse
          rw [h6] at hfalse
          exact Bool.noConfusion hfalse
    · rw [if_neg h6] at h
      have hR' : R' = dinsert (dinsert R gk (.node [])) gk
          (.node (dinsert [] promptK ip)) := (Except.ok.inj h).symm
      constructor
      · rw [treeGet_pair, hR', lookupA_dinsert_self]
        show lookupA (dinsert [] promptK ip) promptK = _
        rw [lookupA_dinsert_self]
        exact (getSub2_ok h1).symm
      · intro _ pp2 pc2 hpp2 hpc2
        have hpp : pp2 = pp := (Option.some.inj hpp2).symm
        subst hpp
        have hpc : pc2 = pc := by
          rw [h5] at hpc2
          exact (Option.some.inj hpc2).symm
        subst hpc
        constructor
        · intro htrue
          exact absurd htrue h6
        · intro _
          rw [treeGet_pair, hR', lookupA_dinsert_self]
          show lookupA (dinsert [] promptK ip) keyK = none
          show lookupA [(promptK, ip)] keyK = none
          rw [lookupA, if_neg (by decide), lookupA]
  · rw [if_neg hp] at h
    have hR' : R' = dinsert (dinsert R gk (.node [])) gk
        (.node (dinsert [] promptK ip)) := (Except.ok.inj h).symm
    constructor
    · rw [treeGet_pair, hR', lookupA_dinsert_self]
      show lookupA (dinsert [] promptK ip) promptK = _
      rw [lookupA_dinsert_self]
      exact (getSub2_ok h1).symm
    · intro hgk
      exact absurd hgk hp

/-- The prompt loop never changes entries outside the three group keys. -/
theorem promptStep_preserves {R init_params : TreeD} {cfg : ModelConfig}
    {R3 : TreeD} (h : promptStep R init_params cfg = .ok R3)
    (k : K) (h1 : k ≠ sharedPromptK) (h2 : k ≠ taskSpecificK)
    (h3 : k ≠ promptPoolK) : lookupA R3 k = lookupA R k := by
  unfold promptStep at h
  cases ha : promptOne R init_params cfg sharedPromptK with
  | error e => rw [ha] at h; exact Except.noConfusion h
  | ok Ra =>
  rw [ha] at h
  simp only [] at h
  cases hb : promptOne Ra init_params cfg taskSpecificK with
  | error e => rw [hb] at h; exact Except.noConfusion h
  | ok Rb =>
  rw [hb] at h
  simp only [] at h
  rw [promptOne_preserves h k h3, promptOne_preserves hb k h2,
    promptOne_preserves ha k h1]

/-- The positional-embedding stage never changes entries outside
`Transformer`. -/
theorem posembStep_preserves {R init_params : TreeD} {cfg : ModelConfig}
    {R' : TreeD} (h : posembStep R init_params cfg = .ok R')
    (k : K) (hk : k ≠ transformerK) : lookupA R' k = lookupA R k := by
  unfold posembStep at h
  cases h1 : lookupA R transformerK with
  | none =>
    rw [h1] at h
    rw [← Except.ok.inj h]
  | some v =>
  rw [h1] at h
  cases v with
  | leaf x =>
    have h' : (Except.ok R : Except LoadError TreeD) = .ok R' := h
    rw [← Except.ok.inj h']
  | node tr =>
  simp only [] at h
  by_cases h2 : hasKeyA tr posembedK = true
  · rw [if_pos h2] at h
    cases h3 : getItem tr posembedK with
    | error e => rw [h3] at h; exact Except.noConfusion h
    | ok pv =>
    rw [h3] at h
    simp only [] at h
    cases pv with
    | leaf x => exact Except.noConfusion h
    | node pd =>
    simp only [] at h
    cases h4 : getItem pd posEmbeddingK with
    | error e => rw [h4] at h; exact Except.noConfusion h
    | ok pe =>
    rw [h4] at h
    simp only [] at h
    cases h5 : asLeaf pe with
    | error e => rw [h5] at h; exact Except.noConfusion h
    | ok posemb =>
    rw [h5] at h
    simp only [] at h
    cases h6 : getLeaf3 init_params transformerK posembedK posEmbeddingK with
    | error e => rw [h6] at h; exact Except.noConfusion h
    | ok pnew =>
    rw [h6] at h
    simp only [] at h
    by_cases h7 : shape3 posemb = shape3 pnew
    · rw [if_pos h7] at h
      rw [← Except.ok.inj h]
    · rw [if_neg h7] at h
      cases h8 : resample_posemb posemb (shape3 pnew).2.1
          (computeTokenLen cfg) with
      | error e => rw [h8] at h; exact Except.noConfusion h
      | ok pe2 =>
      rw [h8] at h
      simp only [] at h
      rw [← Except.ok.inj h, lookupA_dinsert_ne _ _ _ _ hk.symm]
  · rw [if_neg h2] at h
    rw [← Except.ok.inj h]

/-- C5: whenever `load_pretrained` returns a tree, that tree's
`head/kernel` and `head/bias` leaves equal the corresponding leaves of
`init_params`, regardless of the head values stored in the checkpoint. -/
theorem c5_head_overwrite (restored init_params : TreeD) (cfg : ModelConfig)
    (res : TreeD) (hok : load_pretrained restored init_params cfg = .ok res) :
    treeGet res [headK, kernelK] = treeGet init_params [headK, kernelK] ∧
    treeGet res [headK, biasK] = treeGet init_params [headK, biasK] := by
  unfold load_pretrained at hok
  rw [inspect_params_ff] at hok
  simp only [] at hok
  cases hh : headStep (preLogitsStep (recoveredParams restored init_params)
      cfg) init_params with
  | error e => rw [hh] at hok; exact Except.noConfusion hok
  | ok R2 =>
  rw [hh] at hok
  simp only [] at hok
  cases hp : promptStep R2 init_params cfg with
  | error e => rw [hp] at hok; exact Except.noConfusion hok
  | ok R3 =>
  rw [hp] at hok
  simp only [] at hok
  obtain ⟨hker, hbias, _⟩ := headStep_ok hh
  have e1 : lookupA res headK = lookupA R2 headK := by
    rw [posembStep_preserves hok headK (by decide),
      promptStep_preserves hp headK (by decide) (by decide) (by decide)]
  constructor
  · rw [treeGet_pair, e1, ← treeGet_pair, hker]
  · rw [treeGet_pair, e1, ← treeGet_pair, hbias]

/-- Witness for C5: a head-only checkpoint with stale head values is
returned with the expected head kernel and bias. -/
theorem c5_head_overwrite_witness :
    load_pretrained
        [(headK, PTree.node [(kernelK, PTree.leaf [[[9]]]),
          (biasK, PTree.leaf [[[8]]])])]
        [(headK, PTree.node [(kernelK, PTree.leaf [[[1]]]),
          (biasK, PTree.leaf [[[2]]])])]
        ⟨none, false, none⟩ =
      .ok [(headK, PTree.node [(kernelK, PTree.leaf [[[1]]]),
        (biasK, PTree.leaf [[[2]]])])] ∧
    treeGet ([(headK, PTree.node [(kernelK, PTree.leaf [[[1]]]),
        (biasK, PTree.leaf [[[2]]])])] : TreeD) [headK, kernelK] =
      treeGet ([(headK, PTree.node [(kernelK, PTree.leaf [[[1]]]),
        (biasK, PTree.leaf [[[2]]])])] : TreeD) [headK, kernelK] ∧
    treeGet ([(headK, PTree.node [(kernelK, PTree.leaf [[[1]]]),
        (biasK, PTree.leaf [[[2]]])])] : TreeD) [headK, biasK] =
      treeGet ([(headK, PTree.node [(kernelK, PTree.leaf [[[1]]]),
        (biasK, PTree.leaf [[[2]]])])] : TreeD) [headK, biasK] :=
  ⟨rfl,
   (c5_head_overwrite
      [(headK, PTree.node [(kernelK, PTree.leaf [[[9]]]),
        (biasK, PTree.leaf [[[8]]])])]
      [(headK, PTree.node [(kernelK, PTree.leaf [[[1]]]),
        (biasK, PTree.leaf [[[2]]])])]
      ⟨none, false, none⟩
      [(headK, PTree.node [(kernelK, PTree.leaf [[[1]]]),
        (biasK, PTree.leaf [[[2]]])])] rfl).1,
   (c5_head_overwrite
      [(headK, PTree.node [(kernelK, PTree.leaf [[[9]]]),
        (biasK, PTree.leaf [[[8]]])])]
      [(headK, PTree.node [(kernelK, PTree.leaf [[[1]]]),
        (biasK, PTree.leaf [[[2]]])])]
      ⟨none, false, none⟩
      [(headK, PTree.node [(kernelK, PTree.leaf [[[1]]]),
        (biasK, PTree.leaf [[[2]]])])] rfl).2⟩

theorem treeGet_pair_congr {V : Type} {d1 d2 : List (K × PTree V)}
    {k1 : K} (k2 : K) (h : lookupA d1 k1 = lookupA d2 k1) :
    treeGet d1 [k1, k2] = treeGet d2 [k1, k2] := by
  rw [treeGet_pair, treeGet_pair, h]

/-- C7: for each optional prompt group (`shared_prompt`,
`task_specific_prompt`, `prompt_pool`): a group declared by `init_params`
but absent from the reconciled restored tree is created with the expected
`prompt` tensor copied in, the pool group additionally receiving the
expected `key` tensor exactly when the configuration's `prompt_key` flag
is set; a group already present in the reconciled restored tree is left
untouched. -/
theorem c7_prompt_groups (restored init_params : TreeD) (cfg : ModelConfig)
    (res : TreeD)
    (hok : load_pretrained restored init_params cfg = .ok res) :
    ∀ gk ∈ [sharedPromptK, taskSpecificK, promptPoolK],
      (hasKeyA init_params gk = true →
       hasKeyA (recoveredParams restored init_params) gk = false →
        treeGet res [gk, promptK] = treeGet init_params [gk, promptK] ∧
        (gk = promptPoolK →
          ∀ pp pc, cfg.prompt_params = some pp →
            lookupP pp promptPoolK = some pc →
            (pc.prompt_key = true →
              treeGet res [gk, keyK] = treeGet init_params [gk, keyK]) ∧
            (pc.prompt_key = false → treeGet res [gk, keyK] = none))) ∧
      (hasKeyA (recoveredParams restored init_params) gk = true →
        lookupA res gk = lookupA (recoveredParams restored init_params) gk) := by
  unfold load_pretrained at hok
  rw [inspect_params_ff] at hok
  simp only [] at hok
  cases hh : headStep (preLogitsStep (recoveredParams restored init_params)
      cfg) init_params with
  | error e => rw [hh] at hok; exact Except.noConfusion hok
  | ok R2 =>
  rw [hh] at hok
  simp only [] at hok
  cases hp : promptStep R2 init_params cfg with
  | error e => rw [hp] at hok; exact Except.noConfusion hok
  | ok R3 =>
  rw [hp] at hok
  simp only [] at hok
  unfold promptStep at hp
  cases ha : promptOne R2 init_params cfg sharedPromptK with
  | error e => rw [ha] at hp; exact Except.noConfusion hp
  | ok Ra =>
  rw [ha] at hp
  simp only [] at hp
  cases hb : promptOne Ra init_params cfg taskSpecificK with
  | error e => rw [hb] at hp; exact Except.noConfusion hp
  | ok Rb =>
  rw [hb] at hp
  simp only [] at hp
  have hc : promptOne Rb init_params cfg promptPoolK = .ok R3 := hp
  obtain ⟨_, _, hhpr⟩ := headStep_ok hh
  have hstep : ∀ k : K, k ≠ headK → k ≠ preLogitsK →
      lookupA R2 k = lookupA (recoveredParams restored init_params) k := by
    intro k hk1 hk2
    rw [hhpr k hk1, preLogitsStep_preserves _ _ _ hk2]
  intro gk hgk
  fin_cases hgk
  · -- shared_prompt
    have hkey : lookupA R2 sharedPromptK =
        lookupA (recoveredParams restored init_params) sharedPromptK :=
      hstep _ (by decide) (by decide)
    constructor
    · intro hin hnot0
      have hnotR2 : hasKeyA R2 sharedPromptK = false := by
        rw [hasKeyA, hkey, ← hasKeyA, hnot0]
      obtain ⟨hcp, _⟩ := promptOne_created hin hnotR2 ha
      have eres : lookupA res sharedPromptK = lookupA Ra sharedPromptK := by
        rw [posembStep_preserves hok _ (by decide),
          promptOne_preserves hc _ (by decide),
          promptOne_preserves hb _ (by decide)]
      exact ⟨(treeGet_pair_congr _ eres).trans hcp,
        fun hpool => absurd hpool (by decide)⟩
    · intro h0
      have hR2 : hasKeyA R2 sharedPromptK = true := by
        rw [hasKeyA, hkey, ← hasKeyA, h0]
      have hskip : Ra = R2 := by
        have := @promptOne_skip R2 init_params cfg sharedPromptK hR2
        rw [ha] at this
        exact Except.ok.inj this
      rw [posembStep_preserves hok _ (by decide),
        promptOne_preserves hc _ (by decide),
        promptOne_preserves hb _ (by decide), hskip, hkey]
  · -- task_specific_prompt
    have hkey : lookupA Ra taskSpecificK =
        lookupA (recoveredParams restored init_params) taskSpecificK := by
      rw [promptOne_preserves ha _ (by decide)]
      exact hstep _ (by decide) (by decide)
    constructor
    · intro hin hnot0
      have hnotRa : hasKeyA Ra taskSpecificK = false := by
        rw [hasKeyA, hkey, ← hasKeyA, hnot0]
      obtain ⟨hcp, _⟩ := promptOne_created hin hnotRa hb
      have eres : lookupA res taskSpecificK = lookupA Rb taskSpecificK := by
        rw [posembStep_preserves hok _ (by decide),
          promptOne_preserves hc _ (by decide)]
      exact ⟨(treeGet_pair_congr _ eres).trans hcp,
        fun hpool => absurd hpool (by decide)⟩
    · intro h0
      have hRa : hasKeyA Ra taskSpecificK = true := by
        rw [hasKeyA, hkey, ← hasKeyA, h0]
      have hskip : Rb = Ra := by
        have := @promptOne_skip Ra init_params cfg taskSpecificK hRa
        rw [hb] at this
        exact Except.ok.inj this
      rw [posembStep_preserves hok _ (by decide),
        promptOne_preserves hc _ (by decide), hskip, hkey]
  · -- prompt_pool
    have hkey : lookupA Rb promptPoolK =
        lookupA (recoveredParams restored init_params) promptPoolK := by
      rw [promptOne_preserves hb _ (by decide),
        promptOne_preserves ha _ (by decide)]
      exact hstep _ (by decide) (by decide)
    constructor
    · intro hin hnot0
      have hnotRb : hasKeyA Rb promptPoolK = false := by
        rw [hasKeyA, hkey, ← hasKeyA, hnot0]
      obtain ⟨hcp, hck⟩ := promptOne_created hin hnotRb hc
      have eres : lookupA res promptPoolK = lookupA R3 promptPoolK :=
        posembStep_preserves hok _ (by decide)
      refine ⟨(treeGet_pair_congr _ eres).trans hcp, ?_⟩
      intro hgk pp pc hpp hpc
      obtain ⟨ht, hf⟩ := hck hgk pp pc hpp hpc
      exact ⟨fun h6 => (treeGet_pair_congr _ eres).trans (ht h6),
        fun h6 => (treeGet_pair_congr _ eres).trans (hf h6)⟩
    · intro h0
      have hRb : hasKeyA Rb promptPoolK = true := by
        rw [hasKeyA, hkey, ← hasKeyA, h0]
      have hskip : R3 = Rb := by
        have := @promptOne_skip Rb init_params cfg promptPoolK hRb
        rw [hc] at this
        exact Except.ok.inj this
      rw [posembStep_preserves hok _ (by decide), hskip, hkey]

/-- Witness for C7: a checkpoint without a prompt pool gains the expected
pool `prompt` and (with the flag set) `key` tensors. -/
theorem c7_prompt_groups_witness :
    load_pretrained
        [(headK, PTree.node [(kernelK, PTree.leaf [[[9]]]),
          (biasK, PTree.leaf [[[8]]])])]
        [(headK, PTree.node [(kernelK, PTree.leaf [[[1]]]),
          (biasK, PTree.leaf [[[2]]])]),
         (promptPoolK, PTree.node [(promptK, PTree.leaf [[[3]]]),
          (keyK, PTree.leaf [[[4]]])])]
        ⟨none, false, some [(promptPoolK, ⟨1, 1, true⟩)]⟩ =
      .ok [(headK, PTree.node [(kernelK, PTree.leaf [[[1]]]),
          (biasK, PTree.leaf [[[2]]])]),
         (promptPoolK, PTree.node [(promptK, PTree.leaf [[[3]]]),
          (keyK, PTree.leaf [[[4]]])])] ∧
    treeGet ([(headK, PTree.node [(kernelK, PTree.leaf [[[1]]]),
          (biasK, PTree.leaf [[[2]]])]),
         (promptPoolK, PTree.node [(promptK, PTree.leaf [[[3]]]),
          (keyK, PTree.leaf [[[4]]])])] : TreeD) [promptPoolK, promptK] =
      treeGet ([(headK, PTree.node [(kernelK, PTree.leaf [[[1]]]),
          (biasK, PTree.leaf [[[2]]])]),
         (promptPoolK, PTree.node [(promptK, PTree.leaf [[[3]]]),
          (keyK, PTree.leaf [[[4]]])])] : TreeD) [promptPoolK, promptK] ∧
    treeGet ([(headK, PTree.node [(kernelK, PTree.leaf [[[1]]]),
          (biasK, PTree.leaf [[[2]]])]),
         (promptPoolK, PTree.node [(promptK, PTree.leaf [[[3]]]),
          (keyK, PTree.leaf [[[4]]])])] : TreeD) [promptPoolK, keyK] =
      treeGet ([(headK, PTree.node [(kernelK, PTree.leaf [[[1]]]),
          (biasK, PTree.leaf [[[2]]])]),
         (promptPoolK, PTree.node [(promptK, PTree.leaf [[[3]]]),
          (keyK, PTree.leaf [[[4]]])])] : TreeD) [promptPoolK, keyK] :=
  ⟨rfl,
   ((c7_prompt_groups
      [(headK, PTree.node [(kernelK, PTree.leaf [[[9]]]),
        (biasK, PTree.leaf [[[8]]])])]
      [(headK, PTree.node [(kernelK, PTree.leaf [[[1]]]),
        (biasK, PTree.leaf [[[2]]])]),
       (promptPoolK, PTree.node [(promptK, PTree.leaf [[[3]]]),
        (keyK, PTree.leaf [[[4]]])])]
      ⟨none, false, some [(promptPoolK, ⟨1, 1, true⟩)]⟩
      [(headK, PTree.node [(kernelK, PTree.leaf [[[1]]]),
        (biasK, PTree.leaf [[[2]]])]),
       (promptPoolK, PTree.node [(promptK, PTree.leaf [[[3]]]),
        (keyK, PTree.leaf [[[4]]])])]
      rfl promptPoolK (by decide)).1 rfl rfl).1,
   ((((c7_prompt_groups
      [(headK, PTree.node [(kernelK, PTree.leaf [[[9]]]),
        (biasK, PTree.leaf [[[8]]])])]
      [(headK, PTree.node [(kernelK, PTree.leaf [[[1]]]),
        (biasK, PTree.leaf [[[2]]])]),
       (promptPoolK, PTree.node [(promptK, PTree.leaf [[[3]]]),
        (keyK, PTree.leaf [[[4]]])])]
      ⟨none, false, some [(promptPoolK, ⟨1, 1, true⟩)]⟩
      [(headK, PTree.node [(kernelK, PTree.leaf [[[1]]]),
        (biasK, PTree.leaf [[[2]]])]),
       (promptPoolK, PTree.node [(promptK, PTree.leaf [[[3]]]),
        (keyK, PTree.leaf [[[4]]])])]
      rfl promptPoolK (by decide)).1 rfl rfl).2 rfl
      [(promptPoolK, ⟨1, 1, true⟩)] ⟨1, 1, true⟩ rfl rfl).1 rfl)⟩

/-- C9: when the reconciled restored tree's positional-embedding leaf has
exactly the shape of the expected tree's positional-embedding leaf,
`load_pretrained` leaves that embedding unchanged in the returned tree
(no resampling, tiling, or rewriting of the leaf occurs). -/
theorem c9_posemb_noop (restored init_params : TreeD) (cfg : ModelConfig)
    (res : TreeD) (tr pd : TreeD) (posemb pnew : Tensor)
    (hok : load_pretrained restored init_params cfg = .ok res)
    (htr : lookupA (recoveredParams restored init_params) transformerK =
      some (.node tr))
    (hpd : lookupA tr posembedK = some (.node pd))
    (hpe : lookupA pd posEmbeddingK = some (.leaf posemb))
    (hnew : treeGet init_params [transformerK, posembedK, posEmbeddingK] =
      some (.leaf pnew))
    (hshape : shape3 posemb = shape3 pnew) :
    treeGet res [transformerK, posembedK, posEmbeddingK] =
      some (.leaf posemb) := by
  unfold load_pretrained at hok
  rw [inspect_params_ff] at hok
  simp only [] at hok
  cases hh : headStep (preLogitsStep (recoveredParams restored init_params)
      cfg) init_params with
  | error e => rw [hh] at hok; exact Except.noConfusion hok
  | ok R2 =>
  rw [hh] at hok
  simp only [] at hok
  cases hp : promptStep R2 init_params cfg with
  | error e => rw [hp] at hok; exact Except.noConfusion hok
  | ok R3 =>
  rw [hp] at hok
  simp only [] at hok
  have hkey : lookupA R3 transformerK = some (.node tr) := by
    rw [promptStep_preserves hp _ (by decide) (by decide) (by decide),
      (headStep_ok hh).2.2 _ (by decide),
      preLogitsStep_preserves _ _ _ (by decide), htr]
  unfold posembStep at hok
  rw [hkey] at hok
  simp only [] at hok
  have hhk : hasKeyA tr posembedK = true := by
    rw [hasKeyA, hpd]
    rfl
  rw [if_pos hhk] at hok
  rw [show getItem tr posembedK = .ok (.node pd) from by
    rw [getItem, hpd]] at hok
  simp only [] at hok
  rw [show getItem pd posEmbeddingK = .ok (.leaf posemb) from by
    rw [getItem, hpe]] at hok
  simp only [asLeaf] at hok
  rw [getLeaf3_of_treeGet hnew] at hok
  simp only [] at hok
  rw [if_pos hshape] at hok
  have hres : res = R3 := (Except.ok.inj hok).symm
  rw [hres, treeGet_cons2, hkey]
  show treeGet tr [posembedK, posEmbeddingK] = some (.leaf posemb)
  rw [treeGet_pair, hpd]
  show lookupA pd posEmbeddingK = some (.leaf posemb)
  exact hpe

/-- Witness for C9: a checkpoint whose positional embedding already has
the expected shape passes it through unchanged. -/
theorem c9_posemb_noop_witness :
    load_pretrained
        [(headK, PTree.node [(kernelK, PTree.leaf [[[9]]]),
          (biasK, PTree.leaf [[[8]]])]),
         (transformerK, PTree.node [(posembedK, PTree.node
          [(posEmbeddingK, PTree.leaf [[[5], [6]]])])])]
        [(headK, PTree.node [(kernelK, PTree.leaf [[[1]]]),
          (biasK, PTree.leaf [[[2]]])]),
         (transformerK, PTree.node [(posembedK, PTree.node
          [(posEmbeddingK, PTree.leaf [[[1], [2]]])])])]
        ⟨none, false, none⟩ =
      .ok [(headK, PTree.node [(kernelK, PTree.leaf [[[1]]]),
          (biasK, PTree.leaf [[[2]]])]),
         (transformerK, PTree.node [(posembedK, PTree.node
          [(posEmbeddingK, PTree.leaf [[[5], [6]]])])])] ∧
    shape3 [[[5], [6]]] = shape3 [[[1], [2]]] ∧
    treeGet ([(headK, PTree.node [(kernelK, PTree.leaf [[[1]]]),
          (biasK, PTree.leaf [[[2]]])]),
         (transformerK, PTree.node [(posembedK, PTree.node
          [(posEmbeddingK, PTree.leaf [[[5], [6]]])])])] : TreeD)
        [transformerK, posembedK, posEmbeddingK] =
      some (PTree.leaf [[[5], [6]]]) :=
  ⟨rfl, rfl,
   c9_posemb_noop
      [(headK, PTree.node [(kernelK, PTree.leaf [[[9]]]),
        (biasK, PTree.leaf [[[8]]])]),
       (transformerK, PTree.node [(posembedK, PTree.node
        [(posEmbeddingK, PTree.leaf [[[5], [6]]])])])]
      [(headK, PTree.node [(kernelK, PTree.leaf [[[1]]]),
        (biasK, PTree.leaf [[[2]]])]),
       (transformerK, PTree.node [(posembedK, PTree.node
        [(posEmbeddingK, PTree.leaf [[[1], [2]]])])])]
      ⟨none, false, none⟩
      [(headK, PTree.node [(kernelK, PTree.leaf [[[1]]]),
        (biasK, PTree.leaf [[[2]]])]),
       (transformerK, PTree.node [(posembedK, PTree.node
        [(posEmbeddingK, PTree.leaf [[[5], [6]]])])])]
      [(posembedK, PTree.node [(posEmbeddingK, PTree.leaf [[[5], [6]]])])]
      [(posEmbeddingK, PTree.leaf [[[5], [6]]])]
      [[[5], [6]]] [[[1], [2]]]
      rfl rfl rfl rfl rfl rfl⟩

theorem lookupA_foldl_dinsert_not_mem {V : Type} (c : PTree V) :
    ∀ (ks : List K) (params : List (K × PTree V)) (k : K), k ∉ ks →
      lookupA (ks.foldl (fun p k0 => dinsert p k0 c) params) k =
        lookupA params k := by
  intro ks
  induction ks with
  | nil => intro params k _; rfl
  | cons e t ih =>
    intro params k hk
    rw [List.foldl_cons, ih _ _ (fun h => hk (List.mem_cons_of_mem _ h))]
    exact lookupA_dinsert_ne _ _ _ _ (fun h => hk (h ▸ List.mem_cons_self _ _))

/-- C10 counterexample: a restored tree whose `head` entry exists but is
an empty dict — `kernel` and `bias` are missing beneath it — makes
`load_pretrained` succeed: the two head assignments silently create the
missing leaves instead of failing with a key-lookup error. -/
theorem c10_counterexample :
    (lookupA ([(headK, PTree.node [])] : TreeD) headK =
      some (PTree.node []) ∧
     treeGet ([(headK, PTree.node [])] : TreeD) [headK, kernelK] = none ∧
     treeGet ([(headK, PTree.node [])] : TreeD) [headK, biasK] = none) ∧
    load_pretrained [(headK, PTree.node [])]
        [(headK, PTree.node [(kernelK, PTree.leaf [[[1]]]),
          (biasK, PTree.leaf [[[2]]])])]
        ⟨none, false, none⟩ =
      .ok [(headK, PTree.node [(kernelK, PTree.leaf [[[1]]]),
        (biasK, PTree.leaf [[[2]]])])] :=
  ⟨⟨rfl, rfl, rfl⟩, rfl⟩

/-- C10 (amended): when the restored tree has no `head` entry at all (and
the expected schema's flattened form does not declare `head` itself as an
explicitly empty sub-tree — true whenever the expected head carries a
kernel leaf), reconciliation with both failure flags off succeeds, and
`load_pretrained` fails at the unconditional head overwrite with a
key-lookup error for `head`, not with a schema-mismatch error. -/
theorem c10_missing_head (restored init_params : TreeD) (cfg : ModelConfig)
    (ik : PTree Tensor)
    (hrest : lookupA restored headK = none)
    (hflat : isEmptyDictAt (_flatten_dict init_params) headK = false)
    (hik : getSub2 init_params headK kernelK = .ok ik) :
    inspect_params restored init_params false false =
      .ok (recoveredParams restored init_params) ∧
    load_pretrained restored init_params cfg =
      .error (.keyError headK) := by
  refine ⟨inspect_params_ff _ _, ?_⟩
  have hmem : headK ∉ emptyKeysOf restored init_params := by
    intro hm
    unfold emptyKeysOf at hm
    have hfilter := List.of_mem_filter hm
    rw [hflat] at hfilter
    exact Bool.noConfusion hfilter
  have hR0 : lookupA (recoveredParams restored init_params) headK = none := by
    unfold recoveredParams
    rw [lookupA_foldl_dinsert_not_mem _ _ _ _ hmem, hrest]
  have hP : lookupA (preLogitsStep (recoveredParams restored init_params)
      cfg) headK = none := by
    rw [preLogitsStep_preserves _ _ _ (by decide), hR0]
  have hhs : headStep (preLogitsStep (recoveredParams restored init_params)
      cfg) init_params = .error (.keyError headK) := by
    unfold headStep
    rw [hik]
    simp only []
    rw [show getItem (preLogitsStep (recoveredParams restored init_params)
        cfg) headK = .error (.keyError headK) from by rw [getItem, hP]]
  unfold load_pretrained
  rw [inspect_params_ff]
  simp only []
  rw [hhs]

/-- Witness for C10 (amended): an empty checkpoint against a head-bearing
expected tree errors at the head overwrite after a clean reconciliation. -/
theorem c10_missing_head_witness :
    (lookupA ([] : TreeD) headK = none ∧
     isEmptyDictAt (_flatten_dict
       ([(headK, PTree.node [(kernelK, PTree.leaf [[[1]]]),
         (biasK, PTree.leaf [[[2]]])])] : TreeD)) headK = false ∧
     getSub2 ([(headK, PTree.node [(kernelK, PTree.leaf [[[1]]]),
       (biasK, PTree.leaf [[[2]]])])] : TreeD) headK kernelK =
       .ok (PTree.leaf [[[1]]])) ∧
    (inspect_params ([] : TreeD)
        [(headK, PTree.node [(kernelK, PTree.leaf [[[1]]]),
          (biasK, PTree.leaf [[[2]]])])] false false =
      .ok (recoveredParams ([] : TreeD)
        [(headK, PTree.node [(kernelK, PTree.leaf [[[1]]]),
          (biasK, PTree.leaf [[[2]]])])]) ∧
     load_pretrained ([] : TreeD)
        [(headK, PTree.node [(kernelK, PTree.leaf [[[1]]]),
          (biasK, PTree.leaf [[[2]]])])]
        ⟨none, false, none⟩ =
      .error (.keyError headK)) :=
  ⟨⟨rfl, rfl, rfl⟩,
   c10_missing_head []
      [(headK, PTree.node [(kernelK, PTree.leaf [[[1]]]),
        (biasK, PTree.leaf [[[2]]])])]
      ⟨none, false, none⟩ (PTree.leaf [[[1]]]) rfl rfl rfl⟩

end UtilsVit
